import Mathlib

/-!
Verification of the geospatial core of the bohemian-heat-map application
(main application script, plus constants it declares at top level).

Modelling conventions.
* JavaScript numbers on the latitude/longitude arithmetic paths
  (grid construction, bounding boxes, coordinate matching, shoelace sums)
  are modelled as exact rationals `ℚ`; the transcendental paths
  (haversine distance via `Math.sin`/`Math.cos`/`Math.atan2`/`Math.sqrt`,
  the exponential-decay score via `Math.exp`, and the degree-to-km
  conversion via `Math.cos`) are modelled over `ℝ` with the corresponding
  Mathlib functions.
* `Infinity` sentinels (`minDistance` before any business is seen, the
  accumulators of `calculateBounds`) are modelled with `Option` / `WithTop` /
  `WithBot` as noted at each definition.
* `null` return values are modelled as `Option.none`.
* `Array.prototype.sort` with comparator `(a, b) => b.proximityScore - a.proximityScore`
  is a stable sort placing larger scores first (stability is guaranteed by the
  ECMAScript specification); it is modelled by insertion sort with the
  relation `cellLE a b := b.proximityScore ≤ a.proximityScore`, which is a
  stable sorting algorithm for the same total preorder.
-/

/-- A latitude/longitude pair in degrees, as the plain `{lat, lon}` objects
the application passes around. -/
structure Pt where
  lat : ℚ
  lon : ℚ
deriving DecidableEq, Repr, Inhabited

/-- The bounding region object `PORTLAND_BBOX` (source constants lines 197-202). -/
structure RegionBox where
  south : ℚ
  west : ℚ
  north : ℚ
  east : ℚ

/-- Source: `const PORTLAND_BBOX = { south: 45.43, west: -122.84, north: 45.65, east: -122.47 }`. -/
def PORTLAND_BBOX : RegionBox :=
  { south := 45.43, west := -122.84, north := 45.65, east := -122.47 }

/-- Source: `const GRID_SIZE_KM = 0.804`. -/
def GRID_SIZE_KM : ℚ := 0.804

/-- Source: `const GRID_LAT_STEP = 0.00724`. -/
def GRID_LAT_STEP : ℚ := 0.00724

/-- Source: `const GRID_LON_STEP = 0.0103`. -/
def GRID_LON_STEP : ℚ := 0.0103

/-- A business record as consumed by the scorer: its coordinates and its
category tag (the other fields of the loaded objects — name, id, tags —
are never read by the scoring pipeline and are omitted). -/
structure Business where
  lat : ℚ
  lon : ℚ
  category : String
deriving DecidableEq, Repr

/-- The `bounds` object of a grid cell (`{minLat, maxLat, minLon, maxLon}`). -/
structure CellBounds where
  minLat : ℚ
  maxLat : ℚ
  minLon : ℚ
  maxLon : ℚ
deriving DecidableEq, Repr

/-- A grid cell as built by `generateGridCells` and mutated by
`calculateProximityScores`.  `minDistance` is `none` while the JS field is
`Infinity` (no business seen); `businessesByCategory` models the JS object
as the function sending a category string to its bucket. -/
structure GridCell where
  id : ℕ
  row : ℕ
  col : ℕ
  centerLat : ℚ
  centerLon : ℚ
  geometry : List Pt
  bounds : CellBounds
  area : ℚ
  proximityScore : ℝ
  nearestBusiness : Option Business
  minDistance : Option ℝ
  businesses : List Business
  businessCount : ℕ
  businessesByCategory : String → List Business

/-- Source line 971: `const latCells = Math.ceil(latRange / GRID_LAT_STEP)`
with `latRange = PORTLAND_BBOX.north - PORTLAND_BBOX.south`. -/
def latCells : ℕ := Nat.ceil ((PORTLAND_BBOX.north - PORTLAND_BBOX.south) / GRID_LAT_STEP)

/-- Source line 972: `const lonCells = Math.ceil(lonRange / GRID_LON_STEP)`
with `lonRange = PORTLAND_BBOX.east - PORTLAND_BBOX.west`. -/
def lonCells : ℕ := Nat.ceil ((PORTLAND_BBOX.east - PORTLAND_BBOX.west) / GRID_LON_STEP)

/-- The cell object pushed for loop indices `i` (row) and `j` (column) in
`generateGridCells` (source lines 976-1007), translated field by field.
`minDistance` and `businessCount` are absent on the fresh JS object until the
scorer assigns them; they are given the scorer's "not yet computed" values. -/
def mkCell (i j : ℕ) : GridCell :=
  let south := PORTLAND_BBOX.south + i * GRID_LAT_STEP
  let north := south + GRID_LAT_STEP
  let west := PORTLAND_BBOX.west + j * GRID_LON_STEP
  let east := west + GRID_LON_STEP
  { id := i * lonCells + j
    row := i
    col := j
    centerLat := (south + north) / 2
    centerLon := (west + east) / 2
    geometry := [⟨south, west⟩, ⟨north, west⟩, ⟨north, east⟩, ⟨south, east⟩, ⟨south, west⟩]
    bounds := { minLat := south, maxLat := north, minLon := west, maxLon := east }
    area := GRID_SIZE_KM * GRID_SIZE_KM
    proximityScore := 0
    nearestBusiness := none
    minDistance := none
    businesses := []
    businessCount := 0
    businessesByCategory := fun _ => [] }

/-- Source `generateGridCells` (lines 965-1012): the doubly nested loop over
`i < latCells`, `j < lonCells`, pushing cells in row-major order. -/
def generateGridCells : List GridCell :=
  (List.range latCells).flatMap fun i => (List.range lonCells).map fun j => mkCell i j

/-- Row-major nested-loop emission, abstracted over the cell constructor so the
indexing facts below can be proved once by induction on the row count. -/
def rowMajor (f : ℕ → ℕ → GridCell) (m n : ℕ) : List GridCell :=
  (List.range m).flatMap fun i => (List.range n).map fun j => f i j

theorem generateGridCells_eq_rowMajor : generateGridCells = rowMajor mkCell latCells lonCells := rfl

theorem rowMajor_succ (f : ℕ → ℕ → GridCell) (m n : ℕ) :
    rowMajor f (m + 1) n = rowMajor f m n ++ (List.range n).map (f m) := by
  unfold rowMajor
  rw [List.range_succ, List.flatMap_append]
  simp

theorem rowMajor_length (f : ℕ → ℕ → GridCell) (m n : ℕ) :
    (rowMajor f m n).length = m * n := by
  induction m with
  | zero => simp [rowMajor]
  | succ m ih => rw [rowMajor_succ]; simp [ih, Nat.succ_mul]

theorem rowMajor_getElem? (f : ℕ → ℕ → GridCell) {m n i j : ℕ}
    (hi : i < m) (hj : j < n) :
    (rowMajor f m n)[i * n + j]? = some (f i j) := by
  induction m with
  | zero => omega
  | succ m ih =>
    rw [rowMajor_succ, List.getElem?_append]
    rcases Nat.lt_or_ge i m with h | h
    · rw [if_pos (by rw [rowMajor_length]; calc
        i * n + j < i * n + n := by omega
        _ ≤ m * n := by nlinarith)]
      exact ih h
    · have hmi : i = m := by omega
      subst hmi
      rw [if_neg (by rw [rowMajor_length]; omega), rowMajor_length]
      have : i * n + j - i * n = j := by omega
      rw [this, List.getElem?_map, List.getElem?_range hj]
      rfl

theorem rowMajor_mem (f : ℕ → ℕ → GridCell) {m n : ℕ} {x : GridCell} :
    x ∈ rowMajor f m n ↔ ∃ i, i < m ∧ ∃ j, j < n ∧ x = f i j := by
  unfold rowMajor
  simp only [List.mem_flatMap, List.mem_map, List.mem_range]
  constructor
  · rintro ⟨i, hi, j, hj, rfl⟩; exact ⟨i, hi, j, hj, rfl⟩
  · rintro ⟨i, hi, j, hj, rfl⟩; exact ⟨i, hi, j, hj, rfl⟩

theorem latCells_eq : latCells = 31 := by
  have : ((PORTLAND_BBOX.north - PORTLAND_BBOX.south) / GRID_LAT_STEP : ℚ) = 0.22 / 0.00724 := by
    norm_num [PORTLAND_BBOX, GRID_LAT_STEP]
  rw [latCells, this, Nat.ceil_eq_iff (by norm_num)]
  norm_num

theorem lonCells_eq : lonCells = 36 := by
  have : ((PORTLAND_BBOX.east - PORTLAND_BBOX.west) / GRID_LON_STEP : ℚ) = 0.37 / 0.0103 := by
    norm_num [PORTLAND_BBOX, GRID_LON_STEP]
  rw [lonCells, this, Nat.ceil_eq_iff (by norm_num)]
  norm_num

/-- C5: the grid has `ceil(latRange/latStep) * ceil(lonRange/lonStep)` cells in
row-major order; the cell at row `r`, column `c` sits at list position
`r * lonCells + c`, has that number as its id, a five-point closed rectangular
ring, bounds offset from the region origin by whole steps, and its center at
the midpoint of its bounds. -/
theorem grid_builder_row_major (r c : ℕ) (hr : r < latCells) (hc : c < lonCells) :
    generateGridCells.length = latCells * lonCells ∧
    ∃ cell, generateGridCells[r * lonCells + c]? = some cell ∧
      cell.id = r * lonCells + c ∧
      cell.row = r ∧
      cell.col = c ∧
      cell.bounds.minLat = PORTLAND_BBOX.south + r * GRID_LAT_STEP ∧
      cell.bounds.maxLat = PORTLAND_BBOX.south + r * GRID_LAT_STEP + GRID_LAT_STEP ∧
      cell.bounds.minLon = PORTLAND_BBOX.west + c * GRID_LON_STEP ∧
      cell.bounds.maxLon = PORTLAND_BBOX.west + c * GRID_LON_STEP + GRID_LON_STEP ∧
      cell.geometry = [⟨cell.bounds.minLat, cell.bounds.minLon⟩,
        ⟨cell.bounds.maxLat, cell.bounds.minLon⟩,
        ⟨cell.bounds.maxLat, cell.bounds.maxLon⟩,
        ⟨cell.bounds.minLat, cell.bounds.maxLon⟩,
        ⟨cell.bounds.minLat, cell.bounds.minLon⟩] ∧
      cell.geometry.length = 5 ∧
      cell.geometry.head? = cell.geometry.getLast? ∧
      cell.centerLat = (cell.bounds.minLat + cell.bounds.maxLat) / 2 ∧
      cell.centerLon = (cell.bounds.minLon + cell.bounds.maxLon) / 2 := by
  refine ⟨by rw [generateGridCells_eq_rowMajor, rowMajor_length], mkCell r c, ?_⟩
  rw [generateGridCells_eq_rowMajor]
  refine ⟨rowMajor_getElem? mkCell hr hc, rfl, rfl, rfl, rfl, rfl, rfl, rfl, rfl, rfl, rfl, rfl, rfl⟩

/-- Witness for C5 at row 0, column 0. -/
theorem grid_builder_row_major_witness :
    0 < latCells ∧ 0 < lonCells ∧
    (generateGridCells.length = latCells * lonCells ∧
    ∃ cell, generateGridCells[0 * lonCells + 0]? = some cell ∧
      cell.id = 0 * lonCells + 0 ∧
      cell.row = 0 ∧
      cell.col = 0 ∧
      cell.bounds.minLat = PORTLAND_BBOX.south + 0 * GRID_LAT_STEP ∧
      cell.bounds.maxLat = PORTLAND_BBOX.south + 0 * GRID_LAT_STEP + GRID_LAT_STEP ∧
      cell.bounds.minLon = PORTLAND_BBOX.west + 0 * GRID_LON_STEP ∧
      cell.bounds.maxLon = PORTLAND_BBOX.west + 0 * GRID_LON_STEP + GRID_LON_STEP ∧
      cell.geometry = [⟨cell.bounds.minLat, cell.bounds.minLon⟩,
        ⟨cell.bounds.maxLat, cell.bounds.minLon⟩,
        ⟨cell.bounds.maxLat, cell.bounds.maxLon⟩,
        ⟨cell.bounds.minLat, cell.bounds.maxLon⟩,
        ⟨cell.bounds.minLat, cell.bounds.minLon⟩] ∧
      cell.geometry.length = 5 ∧
      cell.geometry.head? = cell.geometry.getLast? ∧
      cell.centerLat = (cell.bounds.minLat + cell.bounds.maxLat) / 2 ∧
      cell.centerLon = (cell.bounds.minLon + cell.bounds.maxLon) / 2) :=
  ⟨by rw [latCells_eq]; norm_num, by rw [lonCells_eq]; norm_num,
    grid_builder_row_major 0 0 (by rw [latCells_eq]; norm_num) (by rw [lonCells_eq]; norm_num)⟩

/-- Closed membership of a coordinate pair in a cell's bounding box, exactly the
inclusive comparison the scorer uses for containment (source lines 1910-1913). -/
def inCellBounds (cell : GridCell) (la lo : ℚ) : Prop :=
  cell.bounds.minLat ≤ la ∧ la ≤ cell.bounds.maxLat ∧
    cell.bounds.minLon ≤ lo ∧ lo ≤ cell.bounds.maxLon

/-- Strict interior of a cell's bounding box. -/
def inCellInterior (cell : GridCell) (la lo : ℚ) : Prop :=
  cell.bounds.minLat < la ∧ la < cell.bounds.maxLat ∧
    cell.bounds.minLon < lo ∧ lo < cell.bounds.maxLon

theorem mkCell_mem {i j : ℕ} (hi : i < latCells) (hj : j < lonCells) :
    mkCell i j ∈ generateGridCells := by
  rw [generateGridCells_eq_rowMajor, rowMajor_mem]
  exact ⟨i, hi, j, hj, rfl⟩

theorem mem_grid_iff {x : GridCell} :
    x ∈ generateGridCells ↔ ∃ i, i < latCells ∧ ∃ j, j < lonCells ∧ x = mkCell i j := by
  rw [generateGridCells_eq_rowMajor, rowMajor_mem]

theorem mkCell_id_inj {i j i' j' : ℕ} (hj : j < lonCells) (hj' : j' < lonCells)
    (h : (mkCell i j).id = (mkCell i' j').id) : i = i' ∧ j = j' := by
  simp only [mkCell] at h
  rw [lonCells_eq] at h hj hj'
  omega

/-- C6: the grid tiles the region.  (1) every point of the configured region
lies in some cell's bounds; (2) a cell and its neighbor one row up share
their horizontal boundary edge exactly and span the same longitudes, and
symmetrically one column right; (3) no point interior to one cell lies in a
different cell's bounds. -/
theorem grid_tiles_region (la lo : ℚ) (c1 c2 : GridCell)
    (h1 : c1 ∈ generateGridCells) (h2 : c2 ∈ generateGridCells)
    (hla : PORTLAND_BBOX.south ≤ la ∧ la ≤ PORTLAND_BBOX.north)
    (hlo : PORTLAND_BBOX.west ≤ lo ∧ lo ≤ PORTLAND_BBOX.east) :
    (∃ cell ∈ generateGridCells, inCellBounds cell la lo) ∧
    (c2.row = c1.row + 1 → c2.col = c1.col →
      c2.bounds.minLat = c1.bounds.maxLat ∧
      c2.bounds.minLon = c1.bounds.minLon ∧ c2.bounds.maxLon = c1.bounds.maxLon) ∧
    (c2.col = c1.col + 1 → c2.row = c1.row →
      c2.bounds.minLon = c1.bounds.maxLon ∧
      c2.bounds.minLat = c1.bounds.minLat ∧ c2.bounds.maxLat = c1.bounds.maxLat) ∧
    (c1.id ≠ c2.id → inCellInterior c1 la lo → ¬ inCellBounds c2 la lo) := by
  obtain ⟨i1, hi1, j1, hj1, rfl⟩ := mem_grid_iff.mp h1
  obtain ⟨i2, hi2, j2, hj2, rfl⟩ := mem_grid_iff.mp h2
  have hlat : (0 : ℚ) < GRID_LAT_STEP := by norm_num [GRID_LAT_STEP]
  have hlon : (0 : ℚ) < GRID_LON_STEP := by norm_num [GRID_LON_STEP]
  refine ⟨?_, ?_, ?_, ?_⟩
  · -- coverage
    set r : ℕ := Nat.floor ((la - PORTLAND_BBOX.south) / GRID_LAT_STEP) with hr
    set c : ℕ := Nat.floor ((lo - PORTLAND_BBOX.west) / GRID_LON_STEP) with hc
    have hla0 : (0 : ℚ) ≤ (la - PORTLAND_BBOX.south) / GRID_LAT_STEP :=
      div_nonneg (by linarith [hla.1]) hlat.le
    have hlo0 : (0 : ℚ) ≤ (lo - PORTLAND_BBOX.west) / GRID_LON_STEP :=
      div_nonneg (by linarith [hlo.1]) hlon.le
    have hrlt : r < latCells := by
      rw [hr, latCells_eq]
      rw [Nat.floor_lt hla0]
      rw [div_lt_iff₀ hlat]
      have h1 : la - PORTLAND_BBOX.south ≤ 0.22 := by
        simp only [PORTLAND_BBOX] at hla ⊢; linarith [hla.2]
      calc la - PORTLAND_BBOX.south ≤ 0.22 := h1
        _ < (31 : ℕ) * GRID_LAT_STEP := by norm_num [GRID_LAT_STEP]
    have hclt : c < lonCells := by
      rw [hc, lonCells_eq]
      rw [Nat.floor_lt hlo0]
      rw [div_lt_iff₀ hlon]
      have h1 : lo - PORTLAND_BBOX.west ≤ 0.37 := by
        simp only [PORTLAND_BBOX] at hlo ⊢; linarith [hlo.2]
      calc lo - PORTLAND_BBOX.west ≤ 0.37 := h1
        _ < (36 : ℕ) * GRID_LON_STEP := by norm_num [GRID_LON_STEP]
    refine ⟨mkCell r c, mkCell_mem hrlt hclt, ?_, ?_, ?_, ?_⟩
    · have := Nat.floor_le hla0
      rw [← hr, le_div_iff₀ hlat] at this
      simp only [mkCell]
      linarith
    · have := Nat.lt_floor_add_one ((la - PORTLAND_BBOX.south) / GRID_LAT_STEP)
      rw [← hr, div_lt_iff₀ hlat] at this
      simp only [mkCell]
      linarith
    · have := Nat.floor_le hlo0
      rw [← hc, le_div_iff₀ hlon] at this
      simp only [mkCell]
      linarith
    · have := Nat.lt_floor_add_one ((lo - PORTLAND_BBOX.west) / GRID_LON_STEP)
      rw [← hc, div_lt_iff₀ hlon] at this
      simp only [mkCell]
      linarith
  · -- row adjacency
    intro hrow hcol
    simp only [mkCell] at hrow hcol ⊢
    subst hrow; subst hcol
    refine ⟨by push_cast; ring, rfl, rfl⟩
  · intro hcol hrow
    simp only [mkCell] at hrow hcol ⊢
    subst hrow; subst hcol
    refine ⟨by push_cast; ring, rfl, rfl⟩
  · intro hid hint hmem
    have hij := fun h => hid (congrArg GridCell.id h)
    have hne : i1 ≠ i2 ∨ j1 ≠ j2 := by
      by_contra hcon
      push_neg at hcon
      exact hid (by rw [hcon.1, hcon.2])
    simp only [mkCell, inCellInterior, inCellBounds] at hint hmem
    rcases hne with hne | hne
    · rcases Nat.lt_or_ge i1 i2 with hlt | hge
      · have : (i1 : ℚ) + 1 ≤ i2 := by exact_mod_cast hlt
        nlinarith [hint.1, hint.2.1, hmem.1, hmem.2.1]
      · have hlt : i2 < i1 := by omega
        have : (i2 : ℚ) + 1 ≤ i1 := by exact_mod_cast hlt
        nlinarith [hint.1, hint.2.1, hmem.1, hmem.2.1]
    · rcases Nat.lt_or_ge j1 j2 with hlt | hge
      · have : (j1 : ℚ) + 1 ≤ j2 := by exact_mod_cast hlt
        nlinarith [hint.2.2.1, hint.2.2.2, hmem.2.2.1, hmem.2.2.2]
      · have hlt : j2 < j1 := by omega
        have : (j2 : ℚ) + 1 ≤ j1 := by exact_mod_cast hlt
        nlinarith [hint.2.2.1, hint.2.2.2, hmem.2.2.1, hmem.2.2.2]

/-- Witness for C6 at the point (45.5, -122.6) with the cells at (0,0) and (1,0). -/
theorem grid_tiles_region_witness :
    mkCell 0 0 ∈ generateGridCells ∧ mkCell 1 0 ∈ generateGridCells ∧
    (PORTLAND_BBOX.south ≤ (45.5 : ℚ) ∧ (45.5 : ℚ) ≤ PORTLAND_BBOX.north) ∧
    (PORTLAND_BBOX.west ≤ (-122.6 : ℚ) ∧ (-122.6 : ℚ) ≤ PORTLAND_BBOX.east) ∧
    ((∃ cell ∈ generateGridCells, inCellBounds cell 45.5 (-122.6)) ∧
    ((mkCell 1 0).row = (mkCell 0 0).row + 1 → (mkCell 1 0).col = (mkCell 0 0).col →
      (mkCell 1 0).bounds.minLat = (mkCell 0 0).bounds.maxLat ∧
      (mkCell 1 0).bounds.minLon = (mkCell 0 0).bounds.minLon ∧
      (mkCell 1 0).bounds.maxLon = (mkCell 0 0).bounds.maxLon) ∧
    ((mkCell 1 0).col = (mkCell 0 0).col + 1 → (mkCell 1 0).row = (mkCell 0 0).row →
      (mkCell 1 0).bounds.minLon = (mkCell 0 0).bounds.maxLon ∧
      (mkCell 1 0).bounds.minLat = (mkCell 0 0).bounds.minLat ∧
      (mkCell 1 0).bounds.maxLat = (mkCell 0 0).bounds.maxLat) ∧
    ((mkCell 0 0).id ≠ (mkCell 1 0).id → inCellInterior (mkCell 0 0) 45.5 (-122.6) →
      ¬ inCellBounds (mkCell 1 0) 45.5 (-122.6))) := by
  have h00 : mkCell 0 0 ∈ generateGridCells :=
    mkCell_mem (by rw [latCells_eq]; norm_num) (by rw [lonCells_eq]; norm_num)
  have h10 : mkCell 1 0 ∈ generateGridCells :=
    mkCell_mem (by rw [latCells_eq]; norm_num) (by rw [lonCells_eq]; norm_num)
  have hla : PORTLAND_BBOX.south ≤ (45.5 : ℚ) ∧ (45.5 : ℚ) ≤ PORTLAND_BBOX.north := by
    constructor <;> norm_num [PORTLAND_BBOX]
  have hlo : PORTLAND_BBOX.west ≤ (-122.6 : ℚ) ∧ (-122.6 : ℚ) ≤ PORTLAND_BBOX.east := by
    constructor <;> norm_num [PORTLAND_BBOX]
  exact ⟨h00, h10, hla, hlo,
    grid_tiles_region 45.5 (-122.6) (mkCell 0 0) (mkCell 1 0) h00 h10 hla hlo⟩

/-- The two-argument arctangent `Math.atan2(y, x)` (IEEE signed-zero cases
collapsed: `atan2 0 0 = 0`). -/
noncomputable def atan2 (y x : ℝ) : ℝ :=
  if 0 < x then Real.arctan (y / x)
  else if x < 0 then
    (if 0 ≤ y then Real.arctan (y / x) + Real.pi else Real.arctan (y / x) - Real.pi)
  else
    (if 0 < y then Real.pi / 2 else if y < 0 then -(Real.pi / 2) else 0)

/-- Source `calculateDistance` (lines 1015-1025): the haversine formula with
Earth radius 6371 km, translated term by term. -/
noncomputable def calculateDistance (lat1 lon1 lat2 lon2 : ℝ) : ℝ :=
  let R : ℝ := 6371
  let dLat := (lat2 - lat1) * Real.pi / 180
  let dLon := (lon2 - lon1) * Real.pi / 180
  let a := Real.sin (dLat / 2) * Real.sin (dLat / 2) +
    Real.cos (lat1 * Real.pi / 180) * Real.cos (lat2 * Real.pi / 180) *
    Real.sin (dLon / 2) * Real.sin (dLon / 2)
  let c := 2 * atan2 (Real.sqrt a) (Real.sqrt (1 - a))
  R * c

theorem atan2_nonneg {y x : ℝ} (hy : 0 ≤ y) (hx : 0 ≤ x) : 0 ≤ atan2 y x := by
  unfold atan2
  rcases lt_or_eq_of_le hx with hx' | hx'
  · rw [if_pos hx']
    have h0 : Real.arctan 0 ≤ Real.arctan (y / x) :=
      Real.arctan_strictMono.monotone (div_nonneg hy hx'.le)
    rw [Real.arctan_zero] at h0
    exact h0
  · rw [if_neg (by rw [← hx']; exact lt_irrefl 0), if_neg (by rw [← hx']; exact lt_irrefl 0)]
    rcases lt_or_eq_of_le hy with hy' | hy'
    · rw [if_pos hy']
      positivity
    · rw [if_neg (by rw [← hy']; exact lt_irrefl 0), if_neg (by rw [← hy']; exact lt_irrefl 0)]

theorem calculateDistance_nonneg (lat1 lon1 lat2 lon2 : ℝ) :
    0 ≤ calculateDistance lat1 lon1 lat2 lon2 := by
  unfold calculateDistance
  simp only []
  set a := Real.sin ((lat2 - lat1) * Real.pi / 180 / 2) * Real.sin ((lat2 - lat1) * Real.pi / 180 / 2) +
    Real.cos (lat1 * Real.pi / 180) * Real.cos (lat2 * Real.pi / 180) *
    Real.sin ((lon2 - lon1) * Real.pi / 180 / 2) * Real.sin ((lon2 - lon1) * Real.pi / 180 / 2) with ha
  have h := atan2_nonneg (Real.sqrt_nonneg a) (Real.sqrt_nonneg (1 - a))
  linarith

/-- The distance from a cell's center to a business, as computed inside the
scorer's loop (source lines 1897-1902). -/
noncomputable def cellBusinessDistance (cell : GridCell) (b : Business) : ℝ :=
  calculateDistance cell.centerLat cell.centerLon b.lat b.lon

/-- One step of the scorer's nearest-business tracking (source lines 1904-1907):
a business strictly closer than the running minimum replaces it.  The pair
`(minDistance, nearestBusiness)` is `none` while the JS variables are still
`(Infinity, null)`; for the first business `distance < Infinity` always holds,
which is the `none` branch. -/
noncomputable def nearestStep (cell : GridCell) (acc : Option (ℝ × Business)) (b : Business) :
    Option (ℝ × Business) :=
  match acc with
  | none => some (cellBusinessDistance cell b, b)
  | some (m, nb) =>
    if cellBusinessDistance cell b < m then some (cellBusinessDistance cell b, b)
    else some (m, nb)

/-- The scorer's scan over the full business list (source lines 1891-1907). -/
noncomputable def nearestScan (cell : GridCell) (ps : List Business) : Option (ℝ × Business) :=
  ps.foldl (nearestStep cell) none

/-- The businesses whose coordinates fall inside the cell's bounds, inclusive
on all four edges (source lines 1910-1915), in input order. -/
def containedPoints (cell : GridCell) (ps : List Business) : List Business :=
  ps.filter fun b =>
    decide (cell.bounds.minLat ≤ b.lat) && decide (b.lat ≤ cell.bounds.maxLat) &&
    decide (cell.bounds.minLon ≤ b.lon) && decide (b.lon ≤ cell.bounds.maxLon)

/-- JavaScript `b.category || 'unknown'` (source line 1935): the only falsy
string is the empty string. -/
def categoryKey (b : Business) : String :=
  if b.category = "" then "unknown" else b.category

/-- The body of the scorer's `forEach` for one cell (source lines 1890-1941):
find the nearest business, push contained businesses onto the existing
`businesses` array (the array is NOT cleared first), set the score by
exponential decay (`0` when `minDistance` is still `Infinity`), and rebuild
`businessCount` and `businessesByCategory` from the accumulated array. -/
noncomputable def scoreCell (ps : List Business) (cell : GridCell) : GridCell :=
  let scan := nearestScan cell ps
  let businessesAfter := cell.businesses ++ containedPoints cell ps
  { cell with
    nearestBusiness := Option.map (fun p => p.2) scan
    minDistance := Option.map (fun p => p.1) scan
    proximityScore :=
      match scan with
      | none => 0
      | some (m, _) => 100 * Real.exp (-m / 0.5)
    businesses := businessesAfter
    businessCount := businessesAfter.length
    businessesByCategory := fun cat => businessesAfter.filter fun b => categoryKey b = cat }

/-- The comparator order of `gridCells.sort((a, b) => b.proximityScore - a.proximityScore)`:
`a` may come before `b` exactly when `a`'s score is at least `b`'s. -/
def cellLE (a b : GridCell) : Prop := b.proximityScore ≤ a.proximityScore

noncomputable instance : DecidableRel cellLE := fun a b => Classical.dec (cellLE a b)

instance : IsTotal GridCell cellLE := ⟨fun a b => le_total b.proximityScore a.proximityScore⟩

instance : IsTrans GridCell cellLE := ⟨fun _ _ _ h1 h2 => le_trans h2 h1⟩

/-- Source line 1944: the stable descending sort of the cell collection. -/
noncomputable def sortCells (cells : List GridCell) : List GridCell :=
  List.insertionSort cellLE cells

/-- Source `calculateProximityScores` (lines 1889-1945) as a function of the
ambient `gridCells` and `allBusinesses` arrays: score every cell in place,
then sort the collection by descending score. -/
noncomputable def calculateProximityScores (cells : List GridCell) (ps : List Business) :
    List GridCell :=
  sortCells (cells.map (scoreCell ps))

theorem foldl_min_le_init {α : Type} [LinearOrder α] (l : List α) (m : α) :
    l.foldl min m ≤ m := by
  induction l generalizing m with
  | nil => simp
  | cons x t ih =>
    simp only [List.foldl_cons]
    exact le_trans (ih (min m x)) (min_le_left m x)

theorem foldl_min_le_mem {α : Type} [LinearOrder α] {l : List α} {x : α} (hx : x ∈ l) (m : α) :
    l.foldl min m ≤ x := by
  induction l generalizing m with
  | nil => simp at hx
  | cons y t ih =>
    simp only [List.foldl_cons]
    rcases List.mem_cons.mp hx with rfl | hx'
    · exact le_trans (foldl_min_le_init t (min m x)) (min_le_right m x)
    · exact ih hx' (min m y)

theorem foldl_min_mem {α : Type} [LinearOrder α] (l : List α) (m : α) :
    l.foldl min m = m ∨ l.foldl min m ∈ l := by
  induction l generalizing m with
  | nil => left; rfl
  | cons x t ih =>
    simp only [List.foldl_cons]
    rcases ih (min m x) with h | h
    · rcases min_choice m x with hm | hm
      · left; rw [h, hm]
      · right; rw [h, hm]; exact List.mem_cons_self x t
    · right; exact List.mem_cons_of_mem x h

theorem foldl_max_init_le {α : Type} [LinearOrder α] (l : List α) (m : α) :
    m ≤ l.foldl max m := by
  induction l generalizing m with
  | nil => simp
  | cons x t ih =>
    simp only [List.foldl_cons]
    exact le_trans (le_max_left m x) (ih (max m x))

theorem foldl_max_mem_le {α : Type} [LinearOrder α] {l : List α} {x : α} (hx : x ∈ l) (m : α) :
    x ≤ l.foldl max m := by
  induction l generalizing m with
  | nil => simp at hx
  | cons y t ih =>
    simp only [List.foldl_cons]
    rcases List.mem_cons.mp hx with rfl | hx'
    · exact le_trans (le_max_right m x) (foldl_max_init_le t (max m x))
    · exact ih hx' (max m y)

theorem foldl_max_mem {α : Type} [LinearOrder α] (l : List α) (m : α) :
    l.foldl max m = m ∨ l.foldl max m ∈ l := by
  induction l generalizing m with
  | nil => left; rfl
  | cons x t ih =>
    simp only [List.foldl_cons]
    rcases ih (max m x) with h | h
    · rcases max_choice m x with hm | hm
      · left; rw [h, hm]
      · right; rw [h, hm]; exact List.mem_cons_self x t
    · right; exact List.mem_cons_of_mem x h

theorem nearestScan_go (cell : GridCell) (tl : List Business) (m : ℝ) (nb : Business) :
    ∃ nb', tl.foldl (nearestStep cell) (some (m, nb)) =
      some ((tl.map (cellBusinessDistance cell)).foldl min m, nb') := by
  induction tl generalizing m nb with
  | nil => exact ⟨nb, rfl⟩
  | cons b t ih =>
    simp only [List.foldl_cons, List.map_cons]
    by_cases hd : cellBusinessDistance cell b < m
    · obtain ⟨nb', hnb'⟩ := ih (cellBusinessDistance cell b) b
      refine ⟨nb', ?_⟩
      rw [nearestStep, if_pos hd, hnb', min_eq_right hd.le]
    · obtain ⟨nb', hnb'⟩ := ih m nb
      refine ⟨nb', ?_⟩
      rw [nearestStep, if_neg hd, hnb', min_eq_left (le_of_not_lt hd)]

theorem nearestScan_cons (cell : GridCell) (b : Business) (tl : List Business) :
    ∃ nb, nearestScan cell (b :: tl) =
      some ((tl.map (cellBusinessDistance cell)).foldl min (cellBusinessDistance cell b), nb) := by
  unfold nearestScan
  simp only [List.foldl_cons]
  exact nearestScan_go cell tl (cellBusinessDistance cell b) b

theorem nearestScan_min_spec (cell : GridCell) (b : Business) (tl : List Business) :
    ∃ d nb, nearestScan cell (b :: tl) = some (d, nb) ∧
      d ∈ (b :: tl).map (cellBusinessDistance cell) ∧
      ∀ e ∈ (b :: tl).map (cellBusinessDistance cell), d ≤ e := by
  obtain ⟨nb, hnb⟩ := nearestScan_cons cell b tl
  refine ⟨(tl.map (cellBusinessDistance cell)).foldl min (cellBusinessDistance cell b), nb,
    hnb, ?_, ?_⟩
  · rw [List.map_cons]
    rcases foldl_min_mem (tl.map (cellBusinessDistance cell)) (cellBusinessDistance cell b)
      with h | h
    · rw [h]; exact List.mem_cons_self _ _
    · exact List.mem_cons_of_mem _ h
  · intro e he
    rw [List.map_cons] at he
    rcases List.mem_cons.mp he with rfl | he'
    · exact foldl_min_le_init _ _
    · exact foldl_min_le_mem he' _

theorem scoreCell_proximityScore (ps : List Business) (cell : GridCell) :
    (scoreCell ps cell).proximityScore =
      match nearestScan cell ps with
      | none => 0
      | some (m, _) => 100 * Real.exp (-m / 0.5) := rfl

theorem scoreCell_score_nonneg (ps : List Business) (cell : GridCell) :
    0 ≤ (scoreCell ps cell).proximityScore := by
  rw [scoreCell_proximityScore]
  match nearestScan cell ps with
  | none => exact le_refl 0
  | some (m, nb) => positivity

theorem scoreCell_score_le_100 (ps : List Business) (cell : GridCell) :
    (scoreCell ps cell).proximityScore ≤ 100 := by
  rcases hps : ps with _ | ⟨b, tl⟩
  · rw [scoreCell_proximityScore]
    norm_num [nearestScan]
  · obtain ⟨d, nb, hscan, hmem, _⟩ := nearestScan_min_spec cell b tl
    rw [scoreCell_proximityScore, hscan]
    show 100 * Real.exp (-d / 0.5) ≤ 100
    have hd : 0 ≤ d := by
      obtain ⟨b', _, rfl⟩ := List.mem_map.mp hmem
      exact calculateDistance_nonneg _ _ _ _
    have hdiv : 0 ≤ d / 0.5 := by positivity
    have hexp : Real.exp (-d / 0.5) ≤ 1 := by
      rw [Real.exp_le_one_iff, neg_div]
      linarith
    linarith

/-- C1: for a non-empty business set the cell's score after a scoring pass is
`100 * exp(-d / 0.5)` where `d` is the minimum haversine distance from the
cell's center to a business; the score always lies in `[0, 100]`; with an
empty business set the score is exactly `0` and no nearest business is
recorded. -/
theorem proximity_score_spec (cell : GridCell) (ps : List Business) (h : ps ≠ []) :
    (∀ qs : List Business, 0 ≤ (scoreCell qs cell).proximityScore ∧
      (scoreCell qs cell).proximityScore ≤ 100) ∧
    ((scoreCell [] cell).proximityScore = 0 ∧ (scoreCell [] cell).nearestBusiness = none) ∧
    (∃ d, (scoreCell ps cell).proximityScore = 100 * Real.exp (-d / 0.5) ∧
      d ∈ ps.map (cellBusinessDistance cell) ∧
      ∀ e ∈ ps.map (cellBusinessDistance cell), d ≤ e) := by
  refine ⟨fun qs => ⟨scoreCell_score_nonneg qs cell, scoreCell_score_le_100 qs cell⟩, ⟨rfl, rfl⟩, ?_⟩
  rcases ps with _ | ⟨b, tl⟩
  · exact absurd rfl h
  · obtain ⟨d, nb, hscan, hmem, hmin⟩ := nearestScan_min_spec cell b tl
    exact ⟨d, by rw [scoreCell_proximityScore, hscan], hmem, hmin⟩

/-- Witness for C1: the cell at (0,0) with a single business inside the region. -/
theorem proximity_score_spec_witness :
    ([⟨45.433, -122.83, "cafe"⟩] : List Business) ≠ [] ∧
    ((∀ qs : List Business, 0 ≤ (scoreCell qs (mkCell 0 0)).proximityScore ∧
      (scoreCell qs (mkCell 0 0)).proximityScore ≤ 100) ∧
    ((scoreCell [] (mkCell 0 0)).proximityScore = 0 ∧
      (scoreCell [] (mkCell 0 0)).nearestBusiness = none) ∧
    (∃ d, (scoreCell [⟨45.433, -122.83, "cafe"⟩] (mkCell 0 0)).proximityScore =
        100 * Real.exp (-d / 0.5) ∧
      d ∈ ([⟨45.433, -122.83, "cafe"⟩] : List Business).map (cellBusinessDistance (mkCell 0 0)) ∧
      ∀ e ∈ ([⟨45.433, -122.83, "cafe"⟩] : List Business).map (cellBusinessDistance (mkCell 0 0)),
        d ≤ e)) :=
  ⟨by simp, proximity_score_spec (mkCell 0 0) [⟨45.433, -122.83, "cafe"⟩] (by simp)⟩

theorem filter_orderedInsert_pos (p : GridCell → Bool) (x : GridCell) (l : List GridCell)
    (hpx : p x = true)
    (hcomp : ∀ b ∈ l, p b = true → b.proximityScore = x.proximityScore) :
    (List.orderedInsert cellLE x l).filter p = x :: l.filter p := by
  induction l with
  | nil => simp [List.orderedInsert, hpx]
  | cons y t ih =>
    rw [List.orderedInsert]
    by_cases hle : cellLE x y
    · rw [if_pos hle]
      simp [List.filter_cons, hpx]
    · rw [if_neg hle]
      have hpy : p y = false := by
        rcases hy : p y with _ | _
        · rfl
        · exfalso
          exact hle (le_of_eq (hcomp y (List.mem_cons_self y t) hy))
      rw [List.filter_cons, hpy]
      simp only [Bool.false_eq_true, if_false]
      rw [ih fun b hb hpb => hcomp b (List.mem_cons_of_mem y hb) hpb]
      rw [List.filter_cons, hpy]
      simp

theorem filter_orderedInsert_neg (p : GridCell → Bool) (x : GridCell) (l : List GridCell)
    (hpx : p x = false) :
    (List.orderedInsert cellLE x l).filter p = l.filter p := by
  induction l with
  | nil => simp [List.orderedInsert, hpx]
  | cons y t ih =>
    rw [List.orderedInsert]
    by_cases hle : cellLE x y
    · rw [if_pos hle]
      simp [List.filter_cons, hpx]
    · rw [if_neg hle]
      rw [List.filter_cons, List.filter_cons, ih]

theorem filter_sortCells (p : GridCell → Bool) (l : List GridCell)
    (hcomp : ∀ a ∈ l, ∀ b ∈ l, p a = true → p b = true →
      a.proximityScore = b.proximityScore) :
    (sortCells l).filter p = l.filter p := by
  induction l with
  | nil => rfl
  | cons x t ih =>
    have hperm : ∀ b, b ∈ sortCells t → b ∈ t := fun b hb =>
      (List.perm_insertionSort cellLE t).mem_iff.mp hb
    rw [show sortCells (x :: t) = List.orderedInsert cellLE x (sortCells t) from rfl]
    rcases hx : p x with _ | _
    · rw [filter_orderedInsert_neg p x _ hx]
      rw [ih fun a ha b hb hpa hpb =>
        hcomp a (List.mem_cons_of_mem x ha) b (List.mem_cons_of_mem x hb) hpa hpb]
      rw [List.filter_cons, hx]
      simp
    · rw [filter_orderedInsert_pos p x _ hx
        (fun b hb hpb => hcomp b (List.mem_cons_of_mem x (hperm b hb))
          x (List.mem_cons_self x t) hpb hx)]
      rw [ih fun a ha b hb hpa hpb =>
        hcomp a (List.mem_cons_of_mem x ha) b (List.mem_cons_of_mem x hb) hpa hpb]
      rw [List.filter_cons, hx]
      simp

/-- C8: after a scoring pass the cell collection is a permutation of the
scored cells, sorted so that each cell's score is at least the next one's,
and cells whose scores tie keep their prior relative order: filtering the
output by any predicate that only selects cells of one common score gives
the same list as filtering the pre-sort scored collection. -/
theorem sorted_ranking (cells : List GridCell) (ps : List Business) (p : GridCell → Bool)
    (hp : ∀ a ∈ cells.map (scoreCell ps), ∀ b ∈ cells.map (scoreCell ps),
      p a = true → p b = true → a.proximityScore = b.proximityScore) :
    (calculateProximityScores cells ps).Perm (cells.map (scoreCell ps)) ∧
    List.Sorted cellLE (calculateProximityScores cells ps) ∧
    (calculateProximityScores cells ps).filter p = (cells.map (scoreCell ps)).filter p :=
  ⟨List.perm_insertionSort cellLE (cells.map (scoreCell ps)),
    List.sorted_insertionSort cellLE (cells.map (scoreCell ps)),
    filter_sortCells p (cells.map (scoreCell ps)) hp⟩

/-- Witness for C8: a one-cell grid, the all-selecting predicate. -/
theorem sorted_ranking_witness :
    (∀ a ∈ ([mkCell 0 0] : List GridCell).map (scoreCell []),
      ∀ b ∈ ([mkCell 0 0] : List GridCell).map (scoreCell []),
      (fun _ : GridCell => true) a = true → (fun _ : GridCell => true) b = true →
      a.proximityScore = b.proximityScore) ∧
    ((calculateProximityScores [mkCell 0 0] []).Perm
      (([mkCell 0 0] : List GridCell).map (scoreCell [])) ∧
    List.Sorted cellLE (calculateProximityScores [mkCell 0 0] []) ∧
    (calculateProximityScores [mkCell 0 0] []).filter (fun _ => true) =
      (([mkCell 0 0] : List GridCell).map (scoreCell [])).filter (fun _ => true)) := by
  have hp : ∀ a ∈ ([mkCell 0 0] : List GridCell).map (scoreCell []),
      ∀ b ∈ ([mkCell 0 0] : List GridCell).map (scoreCell []),
      (fun _ : GridCell => true) a = true → (fun _ : GridCell => true) b = true →
      a.proximityScore = b.proximityScore := by
    intro a ha b hb _ _
    simp only [List.map_cons, List.map_nil, List.mem_singleton] at ha hb
    rw [ha, hb]
  exact ⟨hp, sorted_ranking [mkCell 0 0] [] (fun _ => true) hp⟩

theorem scoreCell_businesses (ps : List Business) (c : GridCell) :
    (scoreCell ps c).businesses = c.businesses ++ containedPoints c ps := rfl

theorem scoreCell_id (ps : List Business) (c : GridCell) : (scoreCell ps c).id = c.id := rfl

theorem scoreCell_center (ps : List Business) (c : GridCell) :
    (scoreCell ps c).centerLat = c.centerLat ∧ (scoreCell ps c).centerLon = c.centerLon :=
  ⟨rfl, rfl⟩

theorem scoreCell_bounds (ps : List Business) (c : GridCell) :
    (scoreCell ps c).bounds = c.bounds := rfl

theorem nearestScan_scoreCell (ps qs : List Business) (c : GridCell) :
    nearestScan (scoreCell ps c) qs = nearestScan c qs := rfl

theorem containedPoints_scoreCell (ps qs : List Business) (c : GridCell) :
    containedPoints (scoreCell ps c) qs = containedPoints c qs := rfl

theorem scoreCell_rescore_score (ps : List Business) (c : GridCell) :
    (scoreCell ps (scoreCell ps c)).proximityScore = (scoreCell ps c).proximityScore := rfl

theorem sorted_map_rescore (ps : List Business) (l : List GridCell)
    (hl : List.Sorted cellLE l) (hsc : ∀ x ∈ l, (scoreCell ps x).proximityScore = x.proximityScore) :
    List.Sorted cellLE (l.map (scoreCell ps)) := by
  rw [List.Sorted, List.pairwise_map]
  refine hl.imp_of_mem ?_
  intro a b ha hb hab
  unfold cellLE at hab ⊢
  rw [hsc a ha, hsc b hb]
  exact hab

theorem calcProx_twice (cells : List GridCell) (ps : List Business) :
    calculateProximityScores (calculateProximityScores cells ps) ps =
      (calculateProximityScores cells ps).map (scoreCell ps) := by
  unfold calculateProximityScores
  apply List.Sorted.insertionSort_eq
  apply sorted_map_rescore
  · exact List.sorted_insertionSort cellLE (cells.map (scoreCell ps))
  · intro x hx
    have : x ∈ cells.map (scoreCell ps) :=
      (List.perm_insertionSort cellLE (cells.map (scoreCell ps))).mem_iff.mp hx
    obtain ⟨c0, _, rfl⟩ := List.mem_map.mp this
    exact scoreCell_rescore_score ps c0

/-- C2, amended: grid generation followed by a scoring pass is deterministic,
and a second scoring pass over already-scored cells keeps every cell in place
with the same id and the same recomputed score — but the contained-points
collection is appended to rather than recomputed: each further pass adds the
cell's contained points again. -/
theorem rescoring_pass_effect (cells : List GridCell) (ps : List Business) :
    (calculateProximityScores (calculateProximityScores cells ps) ps).map
        (fun c => (c.id, c.proximityScore)) =
      (calculateProximityScores cells ps).map (fun c => (c.id, c.proximityScore)) ∧
    (calculateProximityScores (calculateProximityScores cells ps) ps).map
        (fun c => c.businesses) =
      (calculateProximityScores cells ps).map (fun c => c.businesses ++ containedPoints c ps) := by
  rw [calcProx_twice]
  constructor
  · rw [List.map_map]
    apply List.map_congr_left
    intro c hc
    obtain ⟨c0, _, rfl⟩ := List.mem_map.mp
      ((List.perm_insertionSort cellLE (cells.map (scoreCell ps))).mem_iff.mp hc)
    simp only [Function.comp_apply]
    rw [scoreCell_id, scoreCell_rescore_score]
  · rw [List.map_map]
    apply List.map_congr_left
    intro c _
    simp only [Function.comp_apply]
    rw [scoreCell_businesses]

theorem sortCells_singleton (c : GridCell) : sortCells [c] = [c] := rfl

/-- Counterexample to C2 as stated: the scoring pass does not recompute the
contained-points collection from scratch; applied a second time to the same
(already scored) cells it appends the contained businesses again, doubling
the collection. -/
theorem scoring_pass_accumulates :
    (calculateProximityScores
        (calculateProximityScores [mkCell 0 0] [⟨45.433, -122.83, "cafe"⟩])
        [⟨45.433, -122.83, "cafe"⟩]).map (fun c => c.businesses.length) ≠
      (calculateProximityScores [mkCell 0 0] [⟨45.433, -122.83, "cafe"⟩]).map
        (fun c => c.businesses.length) := by
  have hcontained : containedPoints (mkCell 0 0) [⟨45.433, -122.83, "cafe"⟩] =
      [⟨45.433, -122.83, "cafe"⟩] := by
    unfold containedPoints
    rw [List.filter_cons]
    norm_num [mkCell, PORTLAND_BBOX, GRID_LAT_STEP, GRID_LON_STEP]
  have h1 : calculateProximityScores [mkCell 0 0] [⟨45.433, -122.83, "cafe"⟩] =
      [scoreCell [⟨45.433, -122.83, "cafe"⟩] (mkCell 0 0)] := by
    unfold calculateProximityScores
    rw [List.map_cons, List.map_nil, sortCells_singleton]
  rw [h1]
  rw [show calculateProximityScores [scoreCell [⟨45.433, -122.83, "cafe"⟩] (mkCell 0 0)]
      [⟨45.433, -122.83, "cafe"⟩] =
      [scoreCell [⟨45.433, -122.83, "cafe"⟩] (scoreCell [⟨45.433, -122.83, "cafe"⟩] (mkCell 0 0))]
    from rfl]
  simp only [List.map_cons, List.map_nil, ne_eq, List.cons.injEq, and_true]
  rw [scoreCell_businesses, scoreCell_businesses, containedPoints_scoreCell, hcontained]
  simp [mkCell]

/-- The accumulator record of `calculateBounds`: the JS locals start at
`(Infinity, -Infinity, Infinity, -Infinity)`, modelled as `⊤ : WithTop ℚ` for
the minima and `⊥ : WithBot ℚ` for the maxima. -/
structure BoundsAcc where
  minLat : WithTop ℚ
  maxLat : WithBot ℚ
  minLon : WithTop ℚ
  maxLon : WithBot ℚ
deriving DecidableEq, Repr

/-- One iteration of the `forEach` in `calculateBounds` (source lines 1839-1846):
the point is folded in only when `point.lat && point.lon` is truthy, i.e. when
both coordinates are nonzero (`NaN`, the other falsy number, has no rational
counterpart). -/
def boundsStep (acc : BoundsAcc) (p : Pt) : BoundsAcc :=
  if p.lat ≠ 0 ∧ p.lon ≠ 0 then
    { minLat := min acc.minLat ↑p.lat
      maxLat := max acc.maxLat ↑p.lat
      minLon := min acc.minLon ↑p.lon
      maxLon := max acc.maxLon ↑p.lon }
  else acc

/-- Source `calculateBounds` (lines 1833-1849): `null` on a missing or empty
geometry, otherwise the fold of `boundsStep` from the infinite sentinels. -/
def calculateBounds (geometry : List Pt) : Option BoundsAcc :=
  if geometry = [] then none
  else some (geometry.foldl boundsStep ⟨⊤, ⊥, ⊤, ⊥⟩)

theorem boundsFold_minLat (ps : List Pt) (acc : BoundsAcc) :
    (ps.foldl boundsStep acc).minLat =
      ps.foldl (fun m p => if p.lat ≠ 0 ∧ p.lon ≠ 0 then min m ↑p.lat else m) acc.minLat := by
  induction ps generalizing acc with
  | nil => rfl
  | cons p t ih =>
    simp only [List.foldl_cons]
    rw [ih]
    by_cases hc : p.lat ≠ 0 ∧ p.lon ≠ 0
    · rw [boundsStep, if_pos hc, if_pos hc]
    · rw [boundsStep, if_neg hc, if_neg hc]

theorem boundsFold_maxLat (ps : List Pt) (acc : BoundsAcc) :
    (ps.foldl boundsStep acc).maxLat =
      ps.foldl (fun m p => if p.lat ≠ 0 ∧ p.lon ≠ 0 then max m ↑p.lat else m) acc.maxLat := by
  induction ps generalizing acc with
  | nil => rfl
  | cons p t ih =>
    simp only [List.foldl_cons]
    rw [ih]
    by_cases hc : p.lat ≠ 0 ∧ p.lon ≠ 0
    · rw [boundsStep, if_pos hc, if_pos hc]
    · rw [boundsStep, if_neg hc, if_neg hc]

theorem boundsFold_minLon (ps : List Pt) (acc : BoundsAcc) :
    (ps.foldl boundsStep acc).minLon =
      ps.foldl (fun m p => if p.lat ≠ 0 ∧ p.lon ≠ 0 then min m ↑p.lon else m) acc.minLon := by
  induction ps generalizing acc with
  | nil => rfl
  | cons p t ih =>
    simp only [List.foldl_cons]
    rw [ih]
    by_cases hc : p.lat ≠ 0 ∧ p.lon ≠ 0
    · rw [boundsStep, if_pos hc, if_pos hc]
    · rw [boundsStep, if_neg hc, if_neg hc]

theorem boundsFold_maxLon (ps : List Pt) (acc : BoundsAcc) :
    (ps.foldl boundsStep acc).maxLon =
      ps.foldl (fun m p => if p.lat ≠ 0 ∧ p.lon ≠ 0 then max m ↑p.lon else m) acc.maxLon := by
  induction ps generalizing acc with
  | nil => rfl
  | cons p t ih =>
    simp only [List.foldl_cons]
    rw [ih]
    by_cases hc : p.lat ≠ 0 ∧ p.lon ≠ 0
    · rw [boundsStep, if_pos hc, if_pos hc]
    · rw [boundsStep, if_neg hc, if_neg hc]

theorem foldl_ite_all {α β : Type} (cond : α → Prop) [DecidablePred cond]
    (g : β → α → β) (l : List α) (a : β) (h : ∀ x ∈ l, cond x) :
    l.foldl (fun m x => if cond x then g m x else m) a = l.foldl g a := by
  induction l generalizing a with
  | nil => rfl
  | cons x t ih =>
    simp only [List.foldl_cons]
    rw [if_pos (h x (List.mem_cons_self x t))]
    exact ih (g a x) fun y hy => h y (List.mem_cons_of_mem x hy)

theorem foldl_min_map {α β : Type} [LinearOrder β] (f : α → β) (l : List α) (a : β) :
    l.foldl (fun m x => min m (f x)) a = (l.map f).foldl min a := by
  induction l generalizing a with
  | nil => rfl
  | cons x t ih => simp only [List.foldl_cons, List.map_cons]; exact ih (min a (f x))

theorem foldl_max_map {α β : Type} [LinearOrder β] (f : α → β) (l : List α) (a : β) :
    l.foldl (fun m x => max m (f x)) a = (l.map f).foldl max a := by
  induction l generalizing a with
  | nil => rfl
  | cons x t ih => simp only [List.foldl_cons, List.map_cons]; exact ih (max a (f x))

/-- The truthiness guard `point.lat && point.lon` of the `forEach` as a Bool
predicate: the point is folded into the bounds exactly when both coordinates
are nonzero. -/
def keepsPoint (p : Pt) : Bool := decide (p.lat ≠ 0 ∧ p.lon ≠ 0)

theorem boundsFold_filter (ps : List Pt) (acc : BoundsAcc) :
    ps.foldl boundsStep acc = (ps.filter keepsPoint).foldl boundsStep acc := by
  induction ps generalizing acc with
  | nil => rfl
  | cons p t ih =>
    rw [List.foldl_cons, List.filter_cons]
    by_cases hc : p.lat ≠ 0 ∧ p.lon ≠ 0
    · rw [if_pos (show keepsPoint p = true by simp [keepsPoint]; exact hc),
        List.foldl_cons]
      exact ih (boundsStep acc p)
    · rw [if_neg (show ¬ keepsPoint p = true by simp [keepsPoint]; tauto),
        show boundsStep acc p = acc from by rw [boundsStep, if_neg hc]]
      exact ih acc

/-- C7, amended: the bounding-box computation returns `none` exactly on the
empty sequence; on any non-empty sequence it returns a box whose components
bound every point with nonzero latitude and longitude, are attained among
those points when at least one survives the truthiness guard, and collapse to
the infinite sentinels `(⊤, ⊥, ⊤, ⊥)` when every point is skipped.  Points
with a zero coordinate thus never influence the result. -/
theorem bounding_box_spec (ps : List Pt) (h : ps ≠ []) :
    calculateBounds [] = none ∧
    ∃ box, calculateBounds ps = some box ∧
      (∀ p ∈ ps, p.lat ≠ 0 → p.lon ≠ 0 →
        box.minLat ≤ ↑p.lat ∧ (↑p.lat : WithBot ℚ) ≤ box.maxLat ∧
        box.minLon ≤ ↑p.lon ∧ (↑p.lon : WithBot ℚ) ≤ box.maxLon) ∧
      (ps.filter keepsPoint = [] → box = ⟨⊤, ⊥, ⊤, ⊥⟩) ∧
      (ps.filter keepsPoint ≠ [] →
        (∃ p ∈ ps.filter keepsPoint, box.minLat = ↑p.lat) ∧
        (∃ p ∈ ps.filter keepsPoint, box.maxLat = ↑p.lat) ∧
        (∃ p ∈ ps.filter keepsPoint, box.minLon = ↑p.lon) ∧
        (∃ p ∈ ps.filter keepsPoint, box.maxLon = ↑p.lon)) := by
  have hall : ∀ p ∈ ps.filter keepsPoint, p.lat ≠ 0 ∧ p.lon ≠ 0 := by
    intro p hp
    have hkp := (List.mem_filter.mp hp).2
    simpa [keepsPoint] using hkp
  have hfold : ps.foldl boundsStep ⟨⊤, ⊥, ⊤, ⊥⟩ =
      (ps.filter keepsPoint).foldl boundsStep ⟨⊤, ⊥, ⊤, ⊥⟩ := boundsFold_filter ps _
  refine ⟨rfl, ps.foldl boundsStep ⟨⊤, ⊥, ⊤, ⊥⟩, by rw [calculateBounds, if_neg h],
    ?_, ?_, ?_⟩
  · intro p hp hplat hplon
    have hpk : p ∈ ps.filter keepsPoint :=
      List.mem_filter.mpr ⟨hp, by simp [keepsPoint]; exact ⟨hplat, hplon⟩⟩
    refine ⟨?_, ?_, ?_, ?_⟩
    · rw [hfold, boundsFold_minLat, foldl_ite_all _ _ _ _ hall, foldl_min_map]
      exact foldl_min_le_mem (List.mem_map_of_mem (fun q => (↑q.lat : WithTop ℚ)) hpk) ⊤
    · rw [hfold, boundsFold_maxLat, foldl_ite_all _ _ _ _ hall, foldl_max_map]
      exact foldl_max_mem_le (List.mem_map_of_mem (fun q => (↑q.lat : WithBot ℚ)) hpk) ⊥
    · rw [hfold, boundsFold_minLon, foldl_ite_all _ _ _ _ hall, foldl_min_map]
      exact foldl_min_le_mem (List.mem_map_of_mem (fun q => (↑q.lon : WithTop ℚ)) hpk) ⊤
    · rw [hfold, boundsFold_maxLon, foldl_ite_all _ _ _ _ hall, foldl_max_map]
      exact foldl_max_mem_le (List.mem_map_of_mem (fun q => (↑q.lon : WithBot ℚ)) hpk) ⊥
  · intro hke
    rw [hfold, hke]
    rfl
  · intro hke
    obtain ⟨p0, hp0⟩ := List.exists_mem_of_ne_nil _ hke
    refine ⟨?_, ?_, ?_, ?_⟩
    · rw [hfold, boundsFold_minLat, foldl_ite_all _ _ _ _ hall, foldl_min_map]
      rcases foldl_min_mem ((ps.filter keepsPoint).map fun q => (↑q.lat : WithTop ℚ)) ⊤
        with htop | hmem
      · exfalso
        have hle := foldl_min_le_mem
          (List.mem_map_of_mem (fun q => (↑q.lat : WithTop ℚ)) hp0) (⊤ : WithTop ℚ)
        rw [htop] at hle
        exact (WithTop.coe_lt_top p0.lat).not_le hle
      · obtain ⟨p, hp, hpe⟩ := List.mem_map.mp hmem
        exact ⟨p, hp, hpe.symm⟩
    · rw [hfold, boundsFold_maxLat, foldl_ite_all _ _ _ _ hall, foldl_max_map]
      rcases foldl_max_mem ((ps.filter keepsPoint).map fun q => (↑q.lat : WithBot ℚ)) ⊥
        with hbot | hmem
      · exfalso
        have hle := foldl_max_mem_le
          (List.mem_map_of_mem (fun q => (↑q.lat : WithBot ℚ)) hp0) (⊥ : WithBot ℚ)
        rw [hbot] at hle
        exact (WithBot.bot_lt_coe p0.lat).not_le hle
      · obtain ⟨p, hp, hpe⟩ := List.mem_map.mp hmem
        exact ⟨p, hp, hpe.symm⟩
    · rw [hfold, boundsFold_minLon, foldl_ite_all _ _ _ _ hall, foldl_min_map]
      rcases foldl_min_mem ((ps.filter keepsPoint).map fun q => (↑q.lon : WithTop ℚ)) ⊤
        with htop | hmem
      · exfalso
        have hle := foldl_min_le_mem
          (List.mem_map_of_mem (fun q => (↑q.lon : WithTop ℚ)) hp0) (⊤ : WithTop ℚ)
        rw [htop] at hle
        exact (WithTop.coe_lt_top p0.lon).not_le hle
      · obtain ⟨p, hp, hpe⟩ := List.mem_map.mp hmem
        exact ⟨p, hp, hpe.symm⟩
    · rw [hfold, boundsFold_maxLon, foldl_ite_all _ _ _ _ hall, foldl_max_map]
      rcases foldl_max_mem ((ps.filter keepsPoint).map fun q => (↑q.lon : WithBot ℚ)) ⊥
        with hbot | hmem
      · exfalso
        have hle := foldl_max_mem_le
          (List.mem_map_of_mem (fun q => (↑q.lon : WithBot ℚ)) hp0) (⊥ : WithBot ℚ)
        rw [hbot] at hle
        exact (WithBot.bot_lt_coe p0.lon).not_le hle
      · obtain ⟨p, hp, hpe⟩ := List.mem_map.mp hmem
        exact ⟨p, hp, hpe.symm⟩

/-- Witness for C7 on a mixed list: one point with a zero latitude (skipped by
the guard) and one point with nonzero coordinates. -/
theorem bounding_box_spec_witness :
    ([⟨0, 10⟩, ⟨5, 20⟩] : List Pt) ≠ [] ∧
    (calculateBounds [] = none ∧
    ∃ box, calculateBounds [⟨0, 10⟩, ⟨5, 20⟩] = some box ∧
      (∀ p ∈ ([⟨0, 10⟩, ⟨5, 20⟩] : List Pt), p.lat ≠ 0 → p.lon ≠ 0 →
        box.minLat ≤ ↑p.lat ∧ (↑p.lat : WithBot ℚ) ≤ box.maxLat ∧
        box.minLon ≤ ↑p.lon ∧ (↑p.lon : WithBot ℚ) ≤ box.maxLon) ∧
      (([⟨0, 10⟩, ⟨5, 20⟩] : List Pt).filter keepsPoint = [] → box = ⟨⊤, ⊥, ⊤, ⊥⟩) ∧
      (([⟨0, 10⟩, ⟨5, 20⟩] : List Pt).filter keepsPoint ≠ [] →
        (∃ p ∈ ([⟨0, 10⟩, ⟨5, 20⟩] : List Pt).filter keepsPoint, box.minLat = ↑p.lat) ∧
        (∃ p ∈ ([⟨0, 10⟩, ⟨5, 20⟩] : List Pt).filter keepsPoint, box.maxLat = ↑p.lat) ∧
        (∃ p ∈ ([⟨0, 10⟩, ⟨5, 20⟩] : List Pt).filter keepsPoint, box.minLon = ↑p.lon) ∧
        (∃ p ∈ ([⟨0, 10⟩, ⟨5, 20⟩] : List Pt).filter keepsPoint, box.maxLon = ↑p.lon))) :=
  ⟨by simp, bounding_box_spec [⟨0, 10⟩, ⟨5, 20⟩] (by simp)⟩

/-- Counterexample to C7 as stated: `calculateBounds` skips any point whose
latitude or longitude is zero, so on `[(0,10), (5,20)]` it does not return the
componentwise minimum/maximum (which would have `minLat = 0`, `minLon = 10`);
it returns the bounds of the second point alone. -/
theorem bounding_box_skips_zero_coordinate :
    calculateBounds [⟨0, 10⟩, ⟨5, 20⟩] =
      some ⟨((5 : ℚ) : WithTop ℚ), ((5 : ℚ) : WithBot ℚ),
        ((20 : ℚ) : WithTop ℚ), ((20 : ℚ) : WithBot ℚ)⟩ ∧
    calculateBounds [⟨0, 10⟩, ⟨5, 20⟩] ≠
      some ⟨((0 : ℚ) : WithTop ℚ), ((5 : ℚ) : WithBot ℚ),
        ((10 : ℚ) : WithTop ℚ), ((20 : ℚ) : WithBot ℚ)⟩ := by
  have hstep : ([⟨0, 10⟩, ⟨5, 20⟩] : List Pt).foldl boundsStep ⟨⊤, ⊥, ⊤, ⊥⟩ =
      ⟨((5 : ℚ) : WithTop ℚ), ((5 : ℚ) : WithBot ℚ),
        ((20 : ℚ) : WithTop ℚ), ((20 : ℚ) : WithBot ℚ)⟩ := by
    simp only [List.foldl_cons, List.foldl_nil]
    rw [show boundsStep ⟨⊤, ⊥, ⊤, ⊥⟩ ⟨0, 10⟩ = ⟨⊤, ⊥, ⊤, ⊥⟩ by
      rw [boundsStep, if_neg]; norm_num]
    rw [boundsStep, if_pos (by norm_num)]
    congr 1
  constructor
  · rw [calculateBounds, if_neg (by simp), hstep]
  · rw [calculateBounds, if_neg (by simp), hstep]
    intro hcon
    have : ((5 : ℚ) : WithTop ℚ) = ((0 : ℚ) : WithTop ℚ) := congrArg (fun o => (Option.getD o ⟨⊤, ⊥, ⊤, ⊥⟩).minLat) hcon
    rw [WithTop.coe_eq_coe] at this
    norm_num at this

/-- One term of the shoelace accumulation (source lines 1861-1868):
`xi * yj - xj * yi` with `x = lon`, `y = lat` (the `undefined` guard is
always satisfied for well-typed points). -/
def crossTerm (p q : Pt) : ℚ := p.lon * q.lat - q.lon * p.lat

/-- The list of shoelace terms: the loop pairs index `i` with `j = (i+1) % n`,
and `(l.rotate 1)[i] = l[(i+1) % n]`, so zipping the ring with its unit
rotation produces exactly the loop's `(i, j)` pairs. -/
def shoelaceTerms (l : List Pt) : List ℚ :=
  (l.zip (l.rotate 1)).map fun pq => crossTerm pq.1 pq.2

/-- The signed shoelace accumulator `area` of `calculateArea` after the loop. -/
def shoelaceSum (l : List Pt) : ℚ := (shoelaceTerms l).sum

/-- Source `calculateArea` (lines 1853-1885): `0.01` for fewer than 3 points,
otherwise `|area/2|` square degrees scaled by `111` km per degree latitude and
`111 * cos(north * π / 180)` km per degree longitude, floored at `0.01`. -/
noncomputable def calculateArea (geometry : List Pt) : ℝ :=
  if geometry.length < 3 then 0.01
  else
    let areaSqDegrees : ℚ := |shoelaceSum geometry / 2|
    let latKmPerDegree : ℝ := 111
    let lonKmPerDegree : ℝ := 111 * Real.cos ((PORTLAND_BBOX.north : ℝ) * Real.pi / 180)
    max ((areaSqDegrees : ℝ) * latKmPerDegree * lonKmPerDegree) 0.01

/-- C10: every returned polygon area, for arbitrary input, is at least the
0.01 km² floor, so a division by a returned area can never divide by zero. -/
theorem polygon_area_floor (geometry : List Pt) : (0.01 : ℝ) ≤ calculateArea geometry := by
  unfold calculateArea
  by_cases h : geometry.length < 3
  · rw [if_pos h]
  · rw [if_neg h]
    exact le_max_right _ _

theorem zip_take_take {α β : Type} (a : List α) (b : List β) (n : ℕ) :
    (a.zip b).take n = (a.take n).zip (b.take n) := by
  induction a generalizing b n with
  | nil => simp
  | cons x a' ih =>
    cases b with
    | nil => simp
    | cons y b' =>
      cases n with
      | zero => simp
      | succ n => simp [List.zip_cons_cons, ih]

theorem zip_drop_drop {α β : Type} (a : List α) (b : List β) (n : ℕ) :
    (a.zip b).drop n = (a.drop n).zip (b.drop n) := by
  induction a generalizing b n with
  | nil => simp
  | cons x a' ih =>
    cases b with
    | nil => simp
    | cons y b' =>
      cases n with
      | zero => simp
      | succ n => simp [List.zip_cons_cons, ih]

theorem zip_rotate {α β : Type} (a : List α) (b : List β) (h : a.length = b.length) (k : ℕ) :
    (a.zip b).rotate k = (a.rotate k).zip (b.rotate k) := by
  rcases Nat.eq_zero_or_pos a.length with hlen | hlen
  · rw [List.length_eq_zero] at hlen
    subst hlen
    simp at h
    rw [List.eq_nil_of_length_eq_zero h.symm]
    simp
  · have hzlen : (a.zip b).length = a.length := by rw [List.length_zip, h, min_self]
    have hk1 : k % a.length ≤ a.length := (Nat.mod_lt k hlen).le
    have hzk : k % a.length ≤ (a.zip b).length := by rw [hzlen]; exact hk1
    have hbk : k % a.length ≤ b.length := by rw [← h]; exact hk1
    rw [← List.rotate_mod (a.zip b) k, hzlen, ← List.rotate_mod a k, ← List.rotate_mod b k, ← h]
    rw [List.rotate_eq_drop_append_take hzk, List.rotate_eq_drop_append_take hk1,
      List.rotate_eq_drop_append_take hbk]
    rw [List.zip_append (by rw [List.length_drop, List.length_drop, h])]
    rw [zip_drop_drop, zip_take_take]

theorem zip_reverse {α β : Type} (a : List α) (b : List β) (h : a.length = b.length) :
    a.reverse.zip b.reverse = (a.zip b).reverse := by
  induction a generalizing b with
  | nil =>
    simp at h
    rw [List.eq_nil_of_length_eq_zero h.symm]
    simp
  | cons x a' ih =>
    cases b with
    | nil => simp at h
    | cons y b' =>
      simp only [List.length_cons, Nat.succ_inj] at h
      simp only [List.reverse_cons, List.zip_cons_cons]
      rw [List.zip_append (by rw [List.length_reverse, List.length_reverse, h]), ih b' h]
      simp

theorem reverse_rotate_one {α : Type} (l : List α) (h : l ≠ []) :
    l.reverse.rotate 1 = (l.rotate (l.length - 1)).reverse := by
  obtain ⟨m, x, hmx⟩ : ∃ m xx, l = m ++ [xx] :=
    ⟨l.dropLast, l.getLast h, (List.dropLast_append_getLast h).symm⟩
  subst hmx
  rw [List.reverse_append, List.reverse_singleton, List.singleton_append,
    List.rotate_cons_succ, List.rotate_zero]
  rw [List.length_append, List.length_singleton]
  have hstep : m.length + 1 - 1 = m.length := by omega
  rw [hstep, List.rotate_eq_drop_append_take (by simp), List.drop_left, List.take_left]
  simp

theorem sum_map_neg_rat {α : Type} (l : List α) (f : α → ℚ) :
    (l.map fun x => -f x).sum = -(l.map f).sum := by
  induction l with
  | nil => simp
  | cons x t ih => simp [ih]; ring

theorem shoelaceSum_rotate (l : List Pt) (k : ℕ) : shoelaceSum (l.rotate k) = shoelaceSum l := by
  unfold shoelaceSum shoelaceTerms
  have h1 : (l.rotate k).rotate 1 = (l.rotate 1).rotate k := by
    rw [List.rotate_rotate, List.rotate_rotate, Nat.add_comm]
  rw [h1, ← zip_rotate l (l.rotate 1) (by rw [List.length_rotate]) k, List.map_rotate]
  exact (List.rotate_perm _ _).sum_eq

theorem shoelaceSum_reverse (l : List Pt) : shoelaceSum l.reverse = -shoelaceSum l := by
  rcases List.eq_nil_or_concat l with rfl | ⟨_, _, hne⟩
  · simp [shoelaceSum, shoelaceTerms]
  have h : l ≠ [] := by rw [hne]; simp
  unfold shoelaceSum shoelaceTerms
  rw [reverse_rotate_one l h, zip_reverse l (l.rotate (l.length - 1)) (by rw [List.length_rotate]),
    List.map_reverse, List.sum_reverse]
  have hid : l.zip (l.rotate (l.length - 1)) = ((l.rotate 1).zip l).rotate (l.length - 1) := by
    rw [zip_rotate (l.rotate 1) l (by rw [List.length_rotate]) (l.length - 1)]
    rw [List.rotate_rotate]
    have hlen : 1 + (l.length - 1) = l.length := by
      have : 0 < l.length := List.length_pos.mpr h
      omega
    rw [hlen, List.rotate_length]
  rw [hid, List.map_rotate]
  rw [(List.rotate_perm _ _).sum_eq]
  have hswap : (l.rotate 1).zip l = (l.zip (l.rotate 1)).map Prod.swap := by
    rw [List.zip_swap]
  rw [hswap, List.map_map]
  have hfun : ((fun pq : Pt × Pt => crossTerm pq.1 pq.2) ∘ Prod.swap) =
      fun pq : Pt × Pt => -crossTerm pq.1 pq.2 := by
    funext pq
    simp only [Function.comp_apply, Prod.swap]
    unfold crossTerm
    ring
  rw [hfun, sum_map_neg_rat]

/-- Appending the first point to re-close a ring, as several code paths do. -/
def closeRing (m : List Pt) : List Pt :=
  match m with
  | [] => []
  | a :: _ => m ++ [a]

theorem closeRing_length (m : List Pt) (h : m ≠ []) : (closeRing m).length = m.length + 1 := by
  cases m with
  | nil => exact absurd rfl h
  | cons a t => simp [closeRing]

theorem rotate_closeRing_zip (a : Pt) (t : List Pt) :
    (closeRing (a :: t)).zip ((closeRing (a :: t)).rotate 1) =
      (a :: t).zip ((a :: t).rotate 1) ++ [(a, a)] := by
  have hm : closeRing (a :: t) = (a :: t) ++ [a] := rfl
  have hrot : ((a :: t) ++ [a]).rotate 1 = (a :: t).rotate 1 ++ [a] := by
    show ((a :: (t ++ [a])) : List Pt).rotate 1 = (a :: t).rotate 1 ++ [a]
    rw [List.rotate_cons_succ, List.rotate_zero, List.rotate_cons_succ, List.rotate_zero]
  rw [hm, hrot, List.zip_append (by rw [List.length_rotate])]
  rfl

theorem shoelaceSum_closeRing (m : List Pt) : shoelaceSum (closeRing m) = shoelaceSum m := by
  cases m with
  | nil => rfl
  | cons a t =>
    unfold shoelaceSum shoelaceTerms
    rw [rotate_closeRing_zip a t]
    simp only [List.map_append, List.sum_append, List.map_cons, List.map_nil]
    unfold crossTerm
    simp

theorem closed_eq_closeRing (l : List Pt) (h2 : 2 ≤ l.length) (hc : l.head? = l.getLast?) :
    l = closeRing l.dropLast := by
  have hne : l ≠ [] := by
    intro hcon; rw [hcon] at h2; simp at h2
  have hdne : l.dropLast ≠ [] := by
    intro hcon
    have := congrArg List.length hcon
    rw [List.length_dropLast] at this
    simp at this
    omega
  obtain ⟨a, t, hat⟩ := List.exists_cons_of_ne_nil hdne
  have hhead : l.head? = some a := by
    conv_lhs => rw [← List.dropLast_append_getLast hne]
    rw [hat]
    rfl
  have hlast : l.getLast? = some (l.getLast hne) := List.getLast?_eq_getLast l hne
  have hga : l.getLast hne = a := by
    have := hc.symm.trans hhead
    rw [hlast] at this
    exact Option.some_injective _ this
  conv_lhs => rw [← List.dropLast_append_getLast hne]
  rw [hga, hat]
  rfl

/-- Rotation of a closed ring's starting point: drop the closing duplicate,
cyclically rotate the remaining points, and re-close. -/
def ringRotate (l : List Pt) (k : ℕ) : List Pt := closeRing (l.dropLast.rotate k)

/-- C9: for a closed ring with at least 3 points, the returned polygon area is
unchanged by cyclic rotation of the ring's starting point and by reversal of
its orientation. -/
theorem polygon_area_invariance (l : List Pt) (k : ℕ) (h3 : 3 ≤ l.length)
    (hc : l.head? = l.getLast?) :
    calculateArea (ringRotate l k) = calculateArea l ∧
    calculateArea l.reverse = calculateArea l := by
  have hne : l ≠ [] := by intro hcon; rw [hcon] at h3; simp at h3
  have hdne : l.dropLast ≠ [] := by
    intro hcon
    have := congrArg List.length hcon
    rw [List.length_dropLast] at this
    simp at this
    omega
  have hrne : l.dropLast.rotate k ≠ [] := by
    intro hcon
    have := congrArg List.length hcon
    rw [List.length_rotate] at this
    exact hdne (List.eq_nil_of_length_eq_zero this)
  have hrlen : (ringRotate l k).length = l.length := by
    rw [ringRotate, closeRing_length _ hrne, List.length_rotate, List.length_dropLast]
    omega
  have hSrot : shoelaceSum (ringRotate l k) = shoelaceSum l := by
    rw [ringRotate, shoelaceSum_closeRing, shoelaceSum_rotate]
    conv_rhs => rw [closed_eq_closeRing l (by omega) hc]
    rw [shoelaceSum_closeRing]
  have hB : ¬ l.length < 3 := by omega
  constructor
  · have hA : ¬ (ringRotate l k).length < 3 := by rw [hrlen]; omega
    simp only [calculateArea]
    rw [if_neg hA, if_neg hB, hSrot]
  · have hA : ¬ l.reverse.length < 3 := by rw [List.length_reverse]; omega
    simp only [calculateArea]
    rw [if_neg hA, if_neg hB, shoelaceSum_reverse]
    have habs : |(-shoelaceSum l) / 2| = |shoelaceSum l / 2| := by
      rw [neg_div, abs_neg]
    rw [habs]

/-- Witness for C9: the closed triangle (0,0), (0,1), (1,0), (0,0), rotated by 1. -/
theorem polygon_area_invariance_witness :
    3 ≤ ([⟨0, 0⟩, ⟨0, 1⟩, ⟨1, 0⟩, ⟨0, 0⟩] : List Pt).length ∧
    ([⟨0, 0⟩, ⟨0, 1⟩, ⟨1, 0⟩, ⟨0, 0⟩] : List Pt).head? =
      ([⟨0, 0⟩, ⟨0, 1⟩, ⟨1, 0⟩, ⟨0, 0⟩] : List Pt).getLast? ∧
    (calculateArea (ringRotate [⟨0, 0⟩, ⟨0, 1⟩, ⟨1, 0⟩, ⟨0, 0⟩] 1) =
      calculateArea [⟨0, 0⟩, ⟨0, 1⟩, ⟨1, 0⟩, ⟨0, 0⟩] ∧
    calculateArea ([⟨0, 0⟩, ⟨0, 1⟩, ⟨1, 0⟩, ⟨0, 0⟩] : List Pt).reverse =
      calculateArea [⟨0, 0⟩, ⟨0, 1⟩, ⟨1, 0⟩, ⟨0, 0⟩]) :=
  ⟨by simp, rfl, polygon_area_invariance [⟨0, 0⟩, ⟨0, 1⟩, ⟨1, 0⟩, ⟨0, 0⟩] 1 (by simp) rfl⟩

/-- A way segment as prepared for `chainWays` (source lines 1300-1320): an id
and an ordered coordinate list; `startNode`/`endNode` are its first and last
coordinates (`none` models the `undefined` of an empty coordinate list). -/
structure WaySeg where
  id : ℤ
  coords : List Pt
deriving DecidableEq, Repr

def startNode (w : WaySeg) : Option Pt := w.coords.head?

def endNode (w : WaySeg) : Option Pt := w.coords.getLast?

/-- Source line 1361: `const tolerance = 0.0001`. -/
def tolerance : ℚ := 0.0001

/-- The body of `coordsMatch` (source lines 1359-1364) for two present points. -/
def coordsMatch (a b : Pt) : Bool :=
  decide (|a.lat - b.lat| < tolerance) && decide (|a.lon - b.lon| < tolerance)

/-- Source `coordsMatch`, including the `if (!a || !b) return false` guard for
`undefined`/`null` arguments. -/
def coordsMatchO : Option Pt → Option Pt → Bool
  | some a, some b => coordsMatch a b
  | _, _ => false

theorem coordsMatch_eq (a b : Pt) :
    coordsMatch a b =
      (decide (-tolerance < a.lat - b.lat) && decide (a.lat - b.lat < tolerance) &&
        (decide (-tolerance < a.lon - b.lon) && decide (a.lon - b.lon < tolerance))) := by
  simp only [coordsMatch, abs_lt, Bool.decide_and]

/-- The inner `for (const way of waySegments)` scan of the chaining loop
(source lines 1380-1400): the first unused segment whose start (preferred) or
end matches the chain's current endpoint, with the flag recording whether the
segment must be reversed. -/
def findExtension (used : Finset ℤ) (currentEnd : Option Pt) :
    List WaySeg → Option (WaySeg × Bool)
  | [] => none
  | w :: rest =>
    if w.id ∈ used then findExtension used currentEnd rest
    else if coordsMatchO currentEnd (startNode w) then some (w, false)
    else if coordsMatchO currentEnd (endNode w) then some (w, true)
    else findExtension used currentEnd rest

/-- The mutable state of one seed's chaining attempt: the `result` coordinate
array, the `currentEnd` variable, and the `used` id set. -/
structure ChainState where
  result : List Pt
  currentEnd : Option Pt
  used : Finset ℤ
deriving DecidableEq

/-- The `while (progress && used.size < waySegments.length)` loop (source lines
1377-1401).  Each productive round appends the matched segment's coordinates
(minus the shared endpoint, reversed when it matched end-to-end), advances
`currentEnd`, and inserts the segment's id.  The loop is modelled with fuel
`waySegments.length`: every productive round inserts an id that was not in
`used` (see `findExtension`), so the card grows strictly from at least 1 and
the JS loop can make at most `length - 1` productive rounds before either
exhausting the segments or finding no match; `chainLoop_fuel_stable` below
confirms the fuel bound reaches the loop's fixpoint. -/
def chainLoop (ws : List WaySeg) : ℕ → ChainState → ChainState
  | 0, st => st
  | fuel + 1, st =>
    if st.used.card < ws.length then
      match findExtension st.used st.currentEnd ws with
      | none => st
      | some (w, rev) =>
        if rev then
          chainLoop ws fuel ⟨st.result ++ w.coords.reverse.drop 1, startNode w, insert w.id st.used⟩
        else
          chainLoop ws fuel ⟨st.result ++ w.coords.drop 1, endNode w, insert w.id st.used⟩
    else st

/-- One seed's chaining attempt (source lines 1371-1373): the seed's own
coordinates, its last coordinate as current endpoint, its id marked used. -/
def greedySeed (ws : List WaySeg) (seed : WaySeg) : ChainState :=
  chainLoop ws ws.length ⟨seed.coords, seed.coords.getLast?, {seed.id}⟩

/-- The number of segments a seed's greedy chain consumed (`used.size`). -/
def usedCount (ws : List WaySeg) (s : WaySeg) : ℕ := (greedySeed ws s).used.card

/-- The trailing-duplicate pop loop of the full-consumption branch (source
line 1413): pop while the last point matches the second-to-last, modelled on
the reversed list. -/
def popAux : List Pt → List Pt
  | x :: y :: rest => if coordsMatch x y then popAux (y :: rest) else x :: y :: rest
  | l => l

def popTrailing (l : List Pt) : List Pt := (popAux l.reverse).reverse

/-- The full-consumption return (source lines 1404-1421): if the current
endpoint already matches the first point, return the chain as-is; otherwise
(when the chain is non-empty) pop trailing duplicates and append the first
point unless the remaining last point already matches it.  An empty chain
falls through without returning (`none`). -/
def closeFull (result : List Pt) (currentEnd : Option Pt) : Option (List Pt) :=
  match result with
  | [] => none
  | a :: _ =>
    if coordsMatchO currentEnd (some a) then some result
    else
      let r2 := popTrailing result
      if coordsMatchO r2.getLast? (some a) then some r2 else some (r2 ++ [a])

/-- The consecutive-duplicate removal of the best-effort branch (source lines
1434-1439): point `i` is kept iff `i = 0` or it does not match point `i - 1`
of the original chain. -/
def dedupConsecAux (prev : Pt) : List Pt → List Pt
  | [] => []
  | c :: rest =>
    if coordsMatch c prev then dedupConsecAux c rest else c :: dedupConsecAux c rest

def dedupConsec : List Pt → List Pt
  | [] => []
  | a :: rest => a :: dedupConsecAux a rest

/-- The best-effort closing step (source lines 1442-1448): append the first
point when first and last do not already match. -/
def closeCleaned (cleaned : List Pt) : List Pt :=
  match cleaned with
  | [] => []
  | a :: _ => if coordsMatchO (some a) cleaned.getLast? then cleaned else cleaned ++ [a]

/-- The post-loop best-effort return (source lines 1432-1453): require a raw
best chain of at least 3 points, deduplicate, close, and return the result
only if it still has at least 3 entries. -/
def finalizeBest : Option (List Pt) → Option (List Pt)
  | none => none
  | some bc =>
    if 3 ≤ bc.length then
      let closed := closeCleaned (dedupConsec bc)
      if 3 ≤ closed.length then some closed else none
    else none

/-- The outer `for (let startIdx ...)` loop (source lines 1370-1429) with the
post-loop best-effort block: try each seed in order; on full consumption
return the closed chain immediately (unless the chain was empty, in which
case the JS code falls through to best-chain tracking); otherwise track the
first chain attaining the maximum `used.size` (strict improvement only). -/
def seedLoop (ws : List WaySeg) : List WaySeg → Option (List Pt) → ℕ → Option (List Pt)
  | [], bestChain, _ => finalizeBest bestChain
  | s :: rest, bestChain, bestUsed =>
    let st := greedySeed ws s
    if st.used.card = ws.length then
      match closeFull st.result st.currentEnd with
      | some out => some out
      | none =>
        if bestUsed < st.used.card then seedLoop ws rest (some st.result) st.used.card
        else seedLoop ws rest bestChain bestUsed
    else
      if bestUsed < st.used.card then seedLoop ws rest (some st.result) st.used.card
      else seedLoop ws rest bestChain bestUsed

/-- Source `chainWays` (lines 1345-1454).  `null` results are `none`.  A single
segment is closed by appending its first point unless first and last are
exactly equal (strict `!==` comparison, no tolerance).  A single segment with
an empty coordinate list makes the JS code dereference `undefined` (a thrown
`TypeError`), modelled as `none`. -/
def chainWays (ws : List WaySeg) : Option (List Pt) :=
  match ws with
  | [] => none
  | [w] =>
    match w.coords with
    | [] => none
    | a :: rest =>
      let last := (a :: rest).getLast (List.cons_ne_nil a rest)
      if a.lat ≠ last.lat ∨ a.lon ≠ last.lon then some (w.coords ++ [a]) else some w.coords
  | _ :: _ :: _ => seedLoop ws ws none 0

theorem findExtension_spec {used : Finset ℤ} {ce : Option Pt} {ws : List WaySeg}
    {w : WaySeg} {rev : Bool} (h : findExtension used ce ws = some (w, rev)) :
    w.id ∉ used ∧ w ∈ ws := by
  induction ws with
  | nil => simp [findExtension] at h
  | cons x rest ih =>
    rw [findExtension] at h
    by_cases hx : x.id ∈ used
    · rw [if_pos hx] at h
      obtain ⟨h1, h2⟩ := ih h
      exact ⟨h1, List.mem_cons_of_mem x h2⟩
    · rw [if_neg hx] at h
      by_cases hs : coordsMatchO ce (startNode x) = true
      · rw [if_pos hs] at h
        obtain ⟨rfl, _⟩ := Prod.mk.injEq .. ▸ Option.some_injective _ h
        exact ⟨hx, List.mem_cons_self x rest⟩
      · rw [if_neg hs] at h
        by_cases he : coordsMatchO ce (endNode x) = true
        · rw [if_pos he] at h
          obtain ⟨rfl, _⟩ := Prod.mk.injEq .. ▸ Option.some_injective _ h
          exact ⟨hx, List.mem_cons_self x rest⟩
        · rw [if_neg he] at h
          obtain ⟨h1, h2⟩ := ih h
          exact ⟨h1, List.mem_cons_of_mem x h2⟩

theorem findExtension_none_end (used : Finset ℤ) (ws : List WaySeg) :
    findExtension used none ws = none := by
  induction ws with
  | nil => rfl
  | cons x rest ih =>
    rw [findExtension]
    by_cases hx : x.id ∈ used
    · rw [if_pos hx, ih]
    · rw [if_neg hx]
      rw [show coordsMatchO none (startNode x) = false from rfl,
        show coordsMatchO none (endNode x) = false from rfl]
      simp only [Bool.false_eq_true, if_false]
      exact ih

theorem chainLoop_used_subset (ws : List WaySeg) :
    ∀ fuel st, st.used ⊆ (chainLoop ws fuel st).used := by
  intro fuel
  induction fuel with
  | zero => intro st; exact Finset.Subset.refl _
  | succ fuel ih =>
    intro st
    rw [chainLoop]
    by_cases hcard : st.used.card < ws.length
    · rw [if_pos hcard]
      rcases hfe : findExtension st.used st.currentEnd ws with _ | ⟨w, rev⟩
      · exact Finset.Subset.refl _
      · rcases rev with _ | _
        · simp only [Bool.false_eq_true, if_false]
          exact subset_trans (Finset.subset_insert w.id st.used)
            (ih ⟨st.result ++ w.coords.drop 1, endNode w, insert w.id st.used⟩)
        · simp only [if_true]
          exact subset_trans (Finset.subset_insert w.id st.used)
            (ih ⟨st.result ++ w.coords.reverse.drop 1, startNode w, insert w.id st.used⟩)
    · rw [if_neg hcard]

theorem chainLoop_result_extends (ws : List WaySeg) :
    ∀ fuel st, ∃ suffix, (chainLoop ws fuel st).result = st.result ++ suffix := by
  intro fuel
  induction fuel with
  | zero => intro st; exact ⟨[], by rw [chainLoop]; simp⟩
  | succ fuel ih =>
    intro st
    rw [chainLoop]
    by_cases hcard : st.used.card < ws.length
    · rw [if_pos hcard]
      rcases hfe : findExtension st.used st.currentEnd ws with _ | ⟨w, rev⟩
      · exact ⟨[], by simp⟩
      · rcases rev with _ | _
        · simp only [Bool.false_eq_true, if_false]
          obtain ⟨suf, hsuf⟩ := ih ⟨st.result ++ w.coords.drop 1, endNode w, insert w.id st.used⟩
          exact ⟨w.coords.drop 1 ++ suf, by rw [hsuf]; simp⟩
        · simp only [if_true]
          obtain ⟨suf, hsuf⟩ := ih ⟨st.result ++ w.coords.reverse.drop 1, startNode w,
            insert w.id st.used⟩
          exact ⟨w.coords.reverse.drop 1 ++ suf, by rw [hsuf]; simp⟩
    · rw [if_neg hcard]
      exact ⟨[], by simp⟩

theorem chainLoop_none_end (ws : List WaySeg) (fuel : ℕ) (st : ChainState)
    (h : st.currentEnd = none) : chainLoop ws fuel st = st := by
  cases fuel with
  | zero => rfl
  | succ fuel =>
    rw [chainLoop]
    by_cases hcard : st.used.card < ws.length
    · rw [if_pos hcard, h, findExtension_none_end]
    · rw [if_neg hcard]

theorem chainLoop_fuel_stable (ws : List WaySeg) :
    ∀ fuel st, ws.length ≤ st.used.card + fuel →
      chainLoop ws (fuel + 1) st = chainLoop ws fuel st := by
  intro fuel
  induction fuel with
  | zero =>
    intro st hst
    conv_lhs => rw [chainLoop]
    rw [if_neg (show ¬ st.used.card < ws.length by omega)]
    rfl
  | succ fuel ih =>
    intro st hst
    conv_lhs => rw [chainLoop]
    conv_rhs => rw [chainLoop]
    by_cases hcard : st.used.card < ws.length
    · rw [if_pos hcard, if_pos hcard]
      rcases hfe : findExtension st.used st.currentEnd ws with _ | ⟨w, rev⟩
      · rfl
      · have hnotin : w.id ∉ st.used := (findExtension_spec hfe).1
        rcases rev with _ | _
        · simp only [Bool.false_eq_true, if_false]
          exact ih _ (by rw [Finset.card_insert_of_not_mem hnotin]; omega)
        · simp only [if_true]
          exact ih _ (by rw [Finset.card_insert_of_not_mem hnotin]; omega)
    · rw [if_neg hcard, if_neg hcard]

theorem chainLoop_extra_fuel (ws : List WaySeg) (m : ℕ) (st : ChainState) :
    chainLoop ws (ws.length + m) st = chainLoop ws ws.length st := by
  induction m with
  | zero => rfl
  | succ m ih =>
    rw [show ws.length + (m + 1) = (ws.length + m) + 1 from rfl,
      chainLoop_fuel_stable ws (ws.length + m) st (by omega), ih]

theorem usedCount_pos (ws : List WaySeg) (s : WaySeg) : 1 ≤ usedCount ws s := by
  have hsub := chainLoop_used_subset ws ws.length ⟨s.coords, s.coords.getLast?, {s.id}⟩
  have := Finset.card_le_card hsub
  rw [Finset.card_singleton] at this
  exact this

/-- The best-chain tracking of the outer loop in isolation: fold the strict
improvement rule over the remaining seeds. -/
def bestFold (ws : List WaySeg) : List WaySeg → Option (List Pt) × ℕ → Option (List Pt) × ℕ
  | [], acc => acc
  | s :: rest, acc =>
    if acc.2 < usedCount ws s then
      bestFold ws rest (some (greedySeed ws s).result, usedCount ws s)
    else bestFold ws rest acc

theorem seedLoop_eq_bestFold (ws : List WaySeg) (seeds : List WaySeg)
    (H : ∀ s ∈ seeds, usedCount ws s ≠ ws.length) :
    ∀ bc bu, seedLoop ws seeds bc bu = finalizeBest (bestFold ws seeds (bc, bu)).1 := by
  induction seeds with
  | nil => intro bc bu; rfl
  | cons s rest ih =>
    intro bc bu
    have hs : usedCount ws s ≠ ws.length := H s (List.mem_cons_self s rest)
    have hrest : ∀ t ∈ rest, usedCount ws t ≠ ws.length :=
      fun t ht => H t (List.mem_cons_of_mem s ht)
    rw [seedLoop, bestFold]
    simp only []
    rw [if_neg (show ¬ (greedySeed ws s).used.card = ws.length from hs)]
    by_cases himp : bu < (greedySeed ws s).used.card
    · rw [if_pos himp, if_pos (show bu < usedCount ws s from himp), ih hrest]
      rfl
    · rw [if_neg himp, if_neg (show ¬ bu < usedCount ws s from himp), ih hrest]

theorem bestFold_char (ws : List WaySeg) :
    ∀ seeds bc bu,
      (bestFold ws seeds (bc, bu) = (bc, bu) ∧ ∀ t ∈ seeds, usedCount ws t ≤ bu) ∨
      (∃ pre s post, seeds = pre ++ s :: post ∧
        bestFold ws seeds (bc, bu) = (some (greedySeed ws s).result, usedCount ws s) ∧
        bu < usedCount ws s ∧
        (∀ t ∈ pre, usedCount ws t < usedCount ws s) ∧
        (∀ t ∈ post, usedCount ws t ≤ usedCount ws s)) := by
  intro seeds
  induction seeds with
  | nil => intro bc bu; exact Or.inl ⟨rfl, by simp⟩
  | cons s0 rest ih =>
    intro bc bu
    rw [bestFold]
    by_cases himp : bu < usedCount ws s0
    · rw [if_pos (show (bc, bu).2 < usedCount ws s0 from himp)]
      rcases ih (some (greedySeed ws s0).result) (usedCount ws s0) with ⟨heq, hall⟩ | hright
      · refine Or.inr ⟨[], s0, rest, rfl, heq, himp, by simp, hall⟩
      · obtain ⟨pre, s, post, hdec, heq, hlt, hpre, hpost⟩ := hright
        refine Or.inr ⟨s0 :: pre, s, post, by rw [hdec]; rfl, heq, lt_trans himp hlt, ?_, hpost⟩
        intro t ht
        rcases List.mem_cons.mp ht with rfl | ht'
        · exact hlt
        · exact hpre t ht'
    · rw [if_neg (show ¬ (bc, bu).2 < usedCount ws s0 from himp)]
      rcases ih bc bu with ⟨heq, hall⟩ | hright
      · refine Or.inl ⟨heq, ?_⟩
        intro t ht
        rcases List.mem_cons.mp ht with rfl | ht'
        · omega
        · exact hall t ht'
      · obtain ⟨pre, s, post, hdec, heq, hlt, hpre, hpost⟩ := hright
        refine Or.inr ⟨s0 :: pre, s, post, by rw [hdec]; rfl, heq, hlt, ?_, hpost⟩
        intro t ht
        rcases List.mem_cons.mp ht with rfl | ht'
        · omega
        · exact hpre t ht'

/-- C3, amended: when no seed's greedy chain consumes every segment (and there
are at least two segments), `chainWays` takes the chain of the first seed, in
input order, attaining the maximum number of consumed segments; if that raw
chain has at least 3 points it removes consecutive points matching within the
1e-4-degree tolerance, appends the first point unless first and last already
match within tolerance, and returns the result exactly when it still has at
least 3 entries — the appended closing point included, so a ring with only 2
distinct points can be returned; in every other case the result is `none`. -/
theorem chain_best_effort (ws : List WaySeg) (hn : 2 ≤ ws.length)
    (H : ∀ s ∈ ws, usedCount ws s ≠ ws.length) :
    ∃ pre s post, ws = pre ++ s :: post ∧
      (∀ t ∈ ws, usedCount ws t ≤ usedCount ws s) ∧
      (∀ t ∈ pre, usedCount ws t < usedCount ws s) ∧
      chainWays ws =
        (if 3 ≤ (greedySeed ws s).result.length then
          (if 3 ≤ (closeCleaned (dedupConsec (greedySeed ws s).result)).length
           then some (closeCleaned (dedupConsec (greedySeed ws s).result))
           else none)
         else none) := by
  obtain ⟨w1, w2, rest, hws⟩ : ∃ w1 w2 rest, ws = w1 :: w2 :: rest := by
    rcases ws with _ | ⟨w1, ws'⟩
    · simp at hn
    · rcases ws' with _ | ⟨w2, rest⟩
      · simp at hn
      · exact ⟨w1, w2, rest, rfl⟩
  have hchain : chainWays ws = seedLoop ws ws none 0 := by rw [hws]; rfl
  rw [hchain, seedLoop_eq_bestFold ws ws H]
  rcases bestFold_char ws ws none 0 with ⟨_, hall⟩ | hright
  · exfalso
    have h1 := hall w1 (by rw [hws]; exact List.mem_cons_self _ _)
    have h2 := usedCount_pos ws w1
    omega
  · obtain ⟨pre, s, post, hdec, heq, _, hpre, hpost⟩ := hright
    refine ⟨pre, s, post, hdec, ?_, hpre, ?_⟩
    · intro t ht
      rw [hdec] at ht
      rcases List.mem_append.mp ht with ht' | ht'
      · exact (hpre t ht').le
      · rcases List.mem_cons.mp ht' with rfl | ht''
        · exact le_refl _
        · exact hpost t ht''
    · rw [heq]
      rfl

/-- The two-segment input of the C3 counterexample: one segment whose first
two points coincide within tolerance, and one unconnectable far segment. -/
def nearDupSeg : WaySeg := ⟨1, [⟨0, 0⟩, ⟨0.00005, 0⟩, ⟨1, 0⟩]⟩

def farSeg : WaySeg := ⟨2, [⟨10, 10⟩, ⟨11, 10⟩]⟩

/-- Counterexample to C3 as stated: in the best-effort case `chainWays` can
return a ring with only 2 distinct points — the length-3 check runs after the
closing point has been appended, so it does not guarantee 3 distinct points. -/
theorem chain_best_effort_two_distinct :
    chainWays [nearDupSeg, farSeg] = some [⟨0, 0⟩, ⟨1, 0⟩, ⟨0, 0⟩] ∧
    ([⟨0, 0⟩, ⟨1, 0⟩, ⟨0, 0⟩] : List Pt).dedup.length = 2 := by
  constructor
  · show seedLoop [nearDupSeg, farSeg] [nearDupSeg, farSeg] none 0 = _
    norm_num [seedLoop, greedySeed, chainLoop, findExtension, finalizeBest, dedupConsec,
      dedupConsecAux, closeCleaned, coordsMatchO, coordsMatch_eq, startNode, endNode,
      tolerance, nearDupSeg, farSeg]
  · norm_num [List.dedup_cons_of_mem, List.dedup_cons_of_not_mem]

/-- Witness for C3 on the counterexample input, where neither seed consumes
both segments. -/
theorem chain_best_effort_witness :
    2 ≤ ([nearDupSeg, farSeg] : List WaySeg).length ∧
    (∀ s ∈ ([nearDupSeg, farSeg] : List WaySeg),
      usedCount [nearDupSeg, farSeg] s ≠ ([nearDupSeg, farSeg] : List WaySeg).length) ∧
    (∃ pre s post, ([nearDupSeg, farSeg] : List WaySeg) = pre ++ s :: post ∧
      (∀ t ∈ ([nearDupSeg, farSeg] : List WaySeg),
        usedCount [nearDupSeg, farSeg] t ≤ usedCount [nearDupSeg, farSeg] s) ∧
      (∀ t ∈ pre, usedCount [nearDupSeg, farSeg] t < usedCount [nearDupSeg, farSeg] s) ∧
      chainWays [nearDupSeg, farSeg] =
        (if 3 ≤ (greedySeed [nearDupSeg, farSeg] s).result.length then
          (if 3 ≤ (closeCleaned (dedupConsec (greedySeed [nearDupSeg, farSeg] s).result)).length
           then some (closeCleaned (dedupConsec (greedySeed [nearDupSeg, farSeg] s).result))
           else none)
         else none)) := by
  have hn : 2 ≤ ([nearDupSeg, farSeg] : List WaySeg).length := by simp
  have H : ∀ s ∈ ([nearDupSeg, farSeg] : List WaySeg),
      usedCount [nearDupSeg, farSeg] s ≠ ([nearDupSeg, farSeg] : List WaySeg).length := by
    intro s hs
    rcases List.mem_cons.mp hs with rfl | hs'
    · norm_num [usedCount, greedySeed, chainLoop, findExtension, coordsMatchO, coordsMatch_eq,
        startNode, endNode, tolerance, nearDupSeg, farSeg]
    · rcases List.mem_cons.mp hs' with rfl | hs''
      · norm_num [usedCount, greedySeed, chainLoop, findExtension, coordsMatchO, coordsMatch_eq,
          startNode, endNode, tolerance, nearDupSeg, farSeg]
      · simp at hs''
  exact ⟨hn, H, chain_best_effort [nearDupSeg, farSeg] hn H⟩

theorem closeFull_isSome (res : List Pt) (ce : Option Pt) (h : res ≠ []) :
    ∃ out, closeFull res ce = some out := by
  rcases res with _ | ⟨a, r⟩
  · exact absurd rfl h
  · rw [closeFull]
    by_cases h1 : coordsMatchO ce (some a) = true
    · rw [if_pos h1]
      exact ⟨a :: r, rfl⟩
    · rw [if_neg h1]
      by_cases h2 : coordsMatchO (popTrailing (a :: r)).getLast? (some a) = true
      · simp only [h2, if_true]
        exact ⟨popTrailing (a :: r), rfl⟩
      · simp only [h2, Bool.false_eq_true, if_false]
        exact ⟨popTrailing (a :: r) ++ [a], rfl⟩

theorem greedySeed_result_ne_nil (ws : List WaySeg) (s : WaySeg) (hn : 2 ≤ ws.length)
    (hfull : usedCount ws s = ws.length) : (greedySeed ws s).result ≠ [] := by
  rcases hc : s.coords with _ | ⟨a, t⟩
  · exfalso
    have hst : greedySeed ws s = ⟨s.coords, s.coords.getLast?, {s.id}⟩ := by
      apply chainLoop_none_end
      rw [hc]
      rfl
    rw [usedCount, hst] at hfull
    simp only [Finset.card_singleton] at hfull
    omega
  · obtain ⟨suffix, hsuf⟩ := chainLoop_result_extends ws ws.length
      ⟨s.coords, s.coords.getLast?, {s.id}⟩
    rw [greedySeed, hsuf, hc]
    simp

theorem seedLoop_cons (ws : List WaySeg) (s : WaySeg) (rest : List WaySeg)
    (bc : Option (List Pt)) (bu : ℕ) :
    seedLoop ws (s :: rest) bc bu =
      (if (greedySeed ws s).used.card = ws.length then
        match closeFull (greedySeed ws s).result (greedySeed ws s).currentEnd with
        | some out => some out
        | none =>
          if bu < (greedySeed ws s).used.card then
            seedLoop ws rest (some (greedySeed ws s).result) (greedySeed ws s).used.card
          else seedLoop ws rest bc bu
      else
        if bu < (greedySeed ws s).used.card then
          seedLoop ws rest (some (greedySeed ws s).result) (greedySeed ws s).used.card
        else seedLoop ws rest bc bu) := rfl

theorem seedLoop_reaches (ws : List WaySeg) (s : WaySeg) (post : List WaySeg)
    (hfull : usedCount ws s = ws.length)
    (hres : (greedySeed ws s).result ≠ []) :
    ∀ pre bc bu, (∀ t ∈ pre, usedCount ws t ≠ ws.length) →
      seedLoop ws (pre ++ s :: post) bc bu =
        closeFull (greedySeed ws s).result (greedySeed ws s).currentEnd := by
  intro pre
  induction pre with
  | nil =>
    intro bc bu _
    rw [List.nil_append, seedLoop_cons]
    rw [if_pos (show (greedySeed ws s).used.card = ws.length from hfull)]
    obtain ⟨out, hout⟩ := closeFull_isSome (greedySeed ws s).result
      (greedySeed ws s).currentEnd hres
    rw [hout]
  | cons t pre' ih =>
    intro bc bu hb
    have ht : usedCount ws t ≠ ws.length := hb t (List.mem_cons_self t pre')
    have hb' : ∀ u ∈ pre', usedCount ws u ≠ ws.length :=
      fun u hu => hb u (List.mem_cons_of_mem t hu)
    rw [List.cons_append, seedLoop_cons]
    rw [if_neg (show ¬ (greedySeed ws t).used.card = ws.length from ht)]
    by_cases himp : bu < (greedySeed ws t).used.card
    · rw [if_pos himp, ih _ _ hb']
    · rw [if_neg himp, ih _ _ hb']

/-- C4, amended: if some seed's greedy chain consumes every segment, the
reconstructor returns immediately from the first such seed, without growing
or comparing chains from any later seed; the returned ring is the chain
unchanged when its final endpoint already matches its first point within
tolerance, and otherwise the chain with trailing points that duplicate their
predecessor (within tolerance) removed and the exact first point appended
unless the remaining endpoint already matches it. -/
theorem chain_full_return (ws pre post : List WaySeg) (s : WaySeg)
    (hdecomp : ws = pre ++ s :: post) (hn : 2 ≤ ws.length)
    (hfull : usedCount ws s = ws.length)
    (hbefore : ∀ t ∈ pre, usedCount ws t ≠ ws.length) :
    chainWays ws = closeFull (greedySeed ws s).result (greedySeed ws s).currentEnd ∧
    (∃ out, chainWays ws = some out) ∧
    (coordsMatchO (greedySeed ws s).currentEnd (greedySeed ws s).result.head? = true →
      chainWays ws = some (greedySeed ws s).result) := by
  obtain ⟨w1, w2, rest, hws⟩ : ∃ w1 w2 rest, ws = w1 :: w2 :: rest := by
    rcases hw : ws with _ | ⟨w1, ws'⟩
    · rw [hw] at hn; simp at hn
    · rcases hw' : ws' with _ | ⟨w2, rest⟩
      · rw [hw, hw'] at hn; simp at hn
      · exact ⟨w1, w2, rest, rfl⟩
  have hres : (greedySeed ws s).result ≠ [] := greedySeed_result_ne_nil ws s hn hfull
  have hchain : chainWays ws = seedLoop ws ws none 0 := by rw [hws]; rfl
  have h2 : seedLoop ws ws none 0 = seedLoop ws (pre ++ s :: post) none 0 := by rw [← hdecomp]
  have hmain : chainWays ws =
      closeFull (greedySeed ws s).result (greedySeed ws s).currentEnd := by
    rw [hchain, h2, seedLoop_reaches ws s post hfull hres pre none 0 hbefore]
  refine ⟨hmain, ?_, ?_⟩
  · obtain ⟨out, hout⟩ := closeFull_isSome _ _ hres
    exact ⟨out, by rw [hmain, hout]⟩
  · intro hmatch
    rw [hmain]
    obtain ⟨a, r, ha⟩ := List.exists_cons_of_ne_nil hres
    rw [ha] at hmatch ⊢
    rw [List.head?_cons] at hmatch
    rw [closeFull, if_pos hmatch]

/-- Two segments that chain into a full open ring: (0,0)-(0,1) and (0,1)-(1,1). -/
def chainSegAB : WaySeg := ⟨1, [⟨0, 0⟩, ⟨0, 1⟩]⟩

def chainSegBC : WaySeg := ⟨2, [⟨0, 1⟩, ⟨1, 1⟩]⟩

/-- Like `chainSegBC` but with a trailing point duplicating its predecessor
within tolerance. -/
def dupTailSeg : WaySeg := ⟨2, [⟨0, 1⟩, ⟨1, 1⟩, ⟨1.00005, 1⟩]⟩

/-- Witness for C4: the first seed consumes both segments. -/
theorem chain_full_return_witness :
    ([chainSegAB, chainSegBC] : List WaySeg) = [] ++ chainSegAB :: [chainSegBC] ∧
    2 ≤ ([chainSegAB, chainSegBC] : List WaySeg).length ∧
    usedCount [chainSegAB, chainSegBC] chainSegAB = ([chainSegAB, chainSegBC] : List WaySeg).length ∧
    (∀ t ∈ ([] : List WaySeg), usedCount [chainSegAB, chainSegBC] t ≠
      ([chainSegAB, chainSegBC] : List WaySeg).length) ∧
    (chainWays [chainSegAB, chainSegBC] =
      closeFull (greedySeed [chainSegAB, chainSegBC] chainSegAB).result
        (greedySeed [chainSegAB, chainSegBC] chainSegAB).currentEnd ∧
    (∃ out, chainWays [chainSegAB, chainSegBC] = some out) ∧
    (coordsMatchO (greedySeed [chainSegAB, chainSegBC] chainSegAB).currentEnd
        (greedySeed [chainSegAB, chainSegBC] chainSegAB).result.head? = true →
      chainWays [chainSegAB, chainSegBC] =
        some (greedySeed [chainSegAB, chainSegBC] chainSegAB).result)) := by
  have hfull : usedCount [chainSegAB, chainSegBC] chainSegAB =
      ([chainSegAB, chainSegBC] : List WaySeg).length := by
    norm_num [usedCount, greedySeed, chainLoop, findExtension, coordsMatchO, coordsMatch_eq,
      startNode, endNode, tolerance, chainSegAB, chainSegBC]
  exact ⟨rfl, by simp, hfull, by simp,
    chain_full_return [chainSegAB, chainSegBC] [] [chainSegBC] chainSegAB rfl (by simp)
      hfull (by simp)⟩

/-- Counterexample to C4 as stated: when the fully-consuming chain ends in a
point that duplicates its predecessor within tolerance, the returned ring is
not the chain with its starting point appended — the trailing duplicate is
popped first. -/
theorem chain_full_trailing_dup :
    chainWays [chainSegAB, dupTailSeg] = some [⟨0, 0⟩, ⟨0, 1⟩, ⟨1, 1⟩, ⟨0, 0⟩] ∧
    (greedySeed [chainSegAB, dupTailSeg] chainSegAB).result =
      [⟨0, 0⟩, ⟨0, 1⟩, ⟨1, 1⟩, ⟨1.00005, 1⟩] ∧
    chainWays [chainSegAB, dupTailSeg] ≠
      some ((greedySeed [chainSegAB, dupTailSeg] chainSegAB).result ++ [⟨0, 0⟩]) := by
  have hgreedy : (greedySeed [chainSegAB, dupTailSeg] chainSegAB).result =
      [⟨0, 0⟩, ⟨0, 1⟩, ⟨1, 1⟩, ⟨1.00005, 1⟩] := by
    norm_num [greedySeed, chainLoop, findExtension, coordsMatchO, coordsMatch_eq,
      startNode, endNode, tolerance, chainSegAB, dupTailSeg]
  have hchain : chainWays [chainSegAB, dupTailSeg] = some [⟨0, 0⟩, ⟨0, 1⟩, ⟨1, 1⟩, ⟨0, 0⟩] := by
    show seedLoop [chainSegAB, dupTailSeg] [chainSegAB, dupTailSeg] none 0 = _
    norm_num [seedLoop, greedySeed, chainLoop, findExtension, closeFull, popTrailing, popAux,
      coordsMatchO, coordsMatch_eq, startNode, endNode, tolerance, chainSegAB, dupTailSeg]
  refine ⟨hchain, hgreedy, ?_⟩
  rw [hchain, hgreedy]
  intro hcon
  have := Option.some_injective _ hcon
  have hlen := congrArg List.length this
  simp at hlen
